import Mathlib

set_option maxHeartbeats 1000000

/-!
Verification of the knoguchi/rag document-ingestion and query pipeline.

Go strings are modelled as lists of unicode code points (`Str := List Char`);
Go `int` configuration fields as `Int` (word counts, which are non-negative,
as `Nat`); `float32`/`float64` scores as `ℚ` (only order and division are
used, never rounding-sensitive arithmetic); `map[string]string` as
association lists.  SHA-256 is modelled as a formal constructor on its input
string, i.e. collisions are assumed not to occur.
-/

namespace Rag

/-- Go strings, modelled as lists of runes. -/
abbrev Str := List Char

/-- Go `unicode.IsSpace`, restricted to the Latin-1 white-space code points
(the wider Unicode space classes do not occur in this development). -/
def goIsSpace (c : Char) : Bool :=
  c == ' ' || c == '\t' || c == '\n' || c == Char.ofNat 11 || c == Char.ofNat 12 ||
    c == '\r' || c == Char.ofNat 133 || c == Char.ofNat 160

/-- The RE2 character class `\s` = `[\t\n\f\r ]` (ASCII-only, unlike
`unicode.IsSpace`). -/
def regexSpace (c : Char) : Bool :=
  c == ' ' || c == '\t' || c == '\n' || c == Char.ofNat 12 || c == '\r'

/-- Fuel-driven splitter behind `fields`; the fuel (one unit per consumed
character) keeps the recursion structural so that proofs by evaluation can
reduce it. -/
def fieldsF : Nat → Str → List Str
  | _, [] => []
  | 0, _ :: _ => []
  | fuel + 1, c :: cs =>
    if goIsSpace c then fieldsF fuel cs
    else (c :: cs.takeWhile (fun d => !goIsSpace d)) ::
      fieldsF fuel (cs.dropWhile (fun d => !goIsSpace d))

/-- Go `strings.Fields`: split around maximal runs of `unicode.IsSpace`
characters, dropping empty pieces. -/
def fields (s : Str) : List Str := fieldsF s.length s

/-- The fuel of `fieldsF` is irrelevant once it covers the string length. -/
theorem fieldsF_congr :
    ∀ (fuel fuel' : Nat) (s : Str), s.length ≤ fuel → s.length ≤ fuel' →
      fieldsF fuel s = fieldsF fuel' s := by
  intro fuel
  induction fuel with
  | zero =>
    intro fuel' s h1 _
    match s, h1 with
    | [], _ =>
      cases fuel' <;> rfl
  | succ fuel ih =>
    intro fuel' s h1 h2
    match s with
    | [] => cases fuel' <;> rfl
    | c :: cs =>
      match fuel', h2 with
      | g + 1, hg =>
        show fieldsF (fuel + 1) (c :: cs) = fieldsF (g + 1) (c :: cs)
        rw [fieldsF, fieldsF]
        have hl : cs.length ≤ fuel := by
          simp only [List.length_cons] at h1
          omega
        have hl' : cs.length ≤ g := by
          simp only [List.length_cons] at hg
          omega
        have hd : (cs.dropWhile (fun d => !goIsSpace d)).length ≤ fuel := by
          have := (List.dropWhile_sublist (l := cs) (fun d => !goIsSpace d)).length_le
          omega
        have hd' : (cs.dropWhile (fun d => !goIsSpace d)).length ≤ g := by
          have := (List.dropWhile_sublist (l := cs) (fun d => !goIsSpace d)).length_le
          omega
        rw [ih g cs hl hl', ih g _ hd hd']

/-- Custom induction principle matching the recursion pattern of
`fields`. -/
theorem fields_induct (motive : Str → Prop) (h1 : motive [])
    (h2 : ∀ c cs, goIsSpace c = true → motive cs → motive (c :: cs))
    (h3 : ∀ c cs, goIsSpace c = false →
      motive (cs.dropWhile (fun d => !goIsSpace d)) → motive (c :: cs)) :
    ∀ s, motive s := by
  have key : ∀ (n : Nat) (s : Str), s.length ≤ n → motive s := by
    intro n
    induction n with
    | zero =>
      intro s h
      match s with
      | [] => exact h1
      | c :: cs => simp at h
    | succ n ih =>
      intro s h
      match s with
      | [] => exact h1
      | c :: cs =>
        by_cases hc : goIsSpace c
        · refine h2 c cs hc (ih cs ?_)
          simp only [List.length_cons] at h
          omega
        · refine h3 c cs (by simpa using hc) (ih _ ?_)
          have := (List.dropWhile_sublist (l := cs) (fun d => !goIsSpace d)).length_le
          simp only [List.length_cons] at h
          omega
  exact fun s => key s.length s (Nat.le_refl _)

/-- Go `strings.TrimSpace`, leading part. -/
def trimLeft (s : Str) : Str := s.dropWhile goIsSpace

/-- Go `strings.TrimSpace`, trailing part. -/
def trimRight (s : Str) : Str := (s.reverse.dropWhile goIsSpace).reverse

/-- Go `strings.TrimSpace`. -/
def trim (s : Str) : Str := trimRight (trimLeft s)

@[simp]
theorem fields_nil : fields [] = [] := rfl

theorem fields_cons_space {c : Char} (h : goIsSpace c) (cs : Str) :
    fields (c :: cs) = fields cs := by
  show fieldsF (c :: cs).length (c :: cs) = fieldsF cs.length cs
  rw [show (c :: cs).length = cs.length + 1 from rfl, fieldsF]
  simp [h]

theorem fields_cons_nospace {c : Char} (h : goIsSpace c = false) (cs : Str) :
    fields (c :: cs) =
      (c :: cs.takeWhile (fun d => !goIsSpace d)) :: fields (cs.dropWhile (fun d => !goIsSpace d)) := by
  show fieldsF (c :: cs).length (c :: cs) = _
  rw [show (c :: cs).length = cs.length + 1 from rfl, fieldsF]
  simp only [h, Bool.false_eq_true, if_false]
  congr 1
  exact fieldsF_congr cs.length _ _
    (List.dropWhile_sublist _).length_le (Nat.le_refl _)

/-- Words produced by `fields` are non-empty. -/
theorem fields_ne_nil {s : Str} {w : Str} (hw : w ∈ fields s) : w ≠ [] := by
  induction s using fields_induct with
  | h1 => simp at hw
  | h2 c cs h ih =>
    rw [fields_cons_space h] at hw
    exact ih hw
  | h3 c cs h ih =>
    rw [fields_cons_nospace (by simpa using h)] at hw
    rcases List.mem_cons.mp hw with h1 | h1
    · subst h1
      simp
    · exact ih h1

/-- Words produced by `fields` contain no white space. -/
theorem fields_nospace {s : Str} {w : Str} (hw : w ∈ fields s) :
    ∀ c ∈ w, goIsSpace c = false := by
  induction s using fields_induct with
  | h1 => simp at hw
  | h2 c cs h ih =>
    rw [fields_cons_space h] at hw
    exact ih hw
  | h3 c cs h ih =>
    rw [fields_cons_nospace (by simpa using h)] at hw
    rcases List.mem_cons.mp hw with h1 | h1
    · subst h1
      intro d hd
      rcases List.mem_cons.mp hd with h2 | h2
      · subst h2
        simpa using h
      · have := List.mem_takeWhile_imp h2
        simpa using this
    · exact ih h1

/-- A white-space character splits `fields` of a concatenation. -/
theorem fields_append_space {sp : Char} (hsp : goIsSpace sp) :
    ∀ (a b : Str), fields (a ++ sp :: b) = fields a ++ fields b := by
  intro a
  induction a using fields_induct with
  | h1 =>
    intro b
    simp [fields_cons_space hsp]
  | h2 c cs h ih =>
    intro b
    simp only [List.cons_append]
    rw [fields_cons_space h, fields_cons_space h, ih]
  | h3 c cs h ih =>
    intro b
    have hns : goIsSpace c = false := by simpa using h
    simp only [List.cons_append]
    rw [fields_cons_nospace hns, fields_cons_nospace hns]
    by_cases hall : ∀ d ∈ cs, (fun d => !goIsSpace d) d = true
    · -- all of cs is non-space: the take/drop split happens at sp
      have htw : cs.takeWhile (fun d => !goIsSpace d) = cs := List.takeWhile_eq_self_iff.mpr hall
      have hdw : cs.dropWhile (fun d => !goIsSpace d) = [] := List.dropWhile_eq_nil_iff.mpr hall
      have htake : (cs ++ sp :: b).takeWhile (fun d => !goIsSpace d) = cs := by
        rw [List.takeWhile_append]
        simp [htw, List.takeWhile_cons, hsp]
      have hdrop : (cs ++ sp :: b).dropWhile (fun d => !goIsSpace d) = sp :: b := by
        rw [List.dropWhile_append]
        simp [hdw, List.dropWhile_cons, hsp]
      rw [htake, hdrop, htw, hdw, fields_cons_space hsp]
      simp
    · -- cs contains a space character: take/drop stop inside cs
      have hlen : ¬ (cs.takeWhile (fun d => !goIsSpace d)).length = cs.length := by
        intro hl
        exact hall (List.takeWhile_eq_self_iff.mp
          ((List.takeWhile_prefix _).eq_of_length hl))
      have hde : ¬ (cs.dropWhile (fun d => !goIsSpace d)).isEmpty = true := by
        simp only [List.isEmpty_iff]
        intro hd
        exact hall (List.dropWhile_eq_nil_iff.mp hd)
      have htake : (cs ++ sp :: b).takeWhile (fun d => !goIsSpace d)
          = cs.takeWhile (fun d => !goIsSpace d) := by
        rw [List.takeWhile_append, if_neg hlen]
      have hdrop : (cs ++ sp :: b).dropWhile (fun d => !goIsSpace d)
          = cs.dropWhile (fun d => !goIsSpace d) ++ sp :: b := by
        rw [List.dropWhile_append, if_neg hde]
      rw [htake, hdrop, ih]
      simp

/-- `fields` of an all-white-space string is empty. -/
theorem fields_all_space {s : Str} (h : ∀ c ∈ s, goIsSpace c = true) : fields s = [] := by
  induction s with
  | nil => simp
  | cons c cs ih =>
    rw [fields_cons_space (h c (by simp))]
    exact ih (fun d hd => h d (by simp [hd]))

/-- `fields` of a single non-empty space-free word is that word. -/
theorem fields_word {w : Str} (hne : w ≠ []) (hns : ∀ c ∈ w, goIsSpace c = false) :
    fields w = [w] := by
  match w, hne with
  | c :: cs, _ =>
    rw [fields_cons_nospace (hns c (by simp))]
    have htw : cs.takeWhile (fun d => !goIsSpace d) = cs := by
      rw [List.takeWhile_eq_self_iff]
      intro d hd
      simp [hns d (by simp [hd])]
    have hdw : cs.dropWhile (fun d => !goIsSpace d) = [] := by
      rw [List.dropWhile_eq_nil_iff]
      intro d hd
      simp [hns d (by simp [hd])]
    rw [htw, hdw]
    simp

/-- `fields` distributes over a join with single-space separators. -/
theorem fields_intercalate (ws : List Str) :
    fields (List.intercalate [' '] ws) = (ws.map fields).flatten := by
  induction ws with
  | nil => simp [List.intercalate]
  | cons w rest ih =>
    cases rest with
    | nil => simp [List.intercalate]
    | cons v vs =>
      have hstep : List.intercalate [' '] (w :: v :: vs)
          = w ++ ' ' :: List.intercalate [' '] (v :: vs) := by
        simp [List.intercalate, List.intersperse]
      rw [hstep, fields_append_space (by simp [goIsSpace]) w _, ih]
      simp

/-- `fields` on a join of non-empty space-free words recovers the words. -/
theorem fields_intercalate_words {ws : List Str}
    (h : ∀ w ∈ ws, w ≠ [] ∧ ∀ c ∈ w, goIsSpace c = false) :
    fields (List.intercalate [' '] ws) = ws := by
  rw [fields_intercalate]
  have h1 : ws.map fields = ws.map (fun w => [w]) := by
    apply List.map_congr_left
    intro w hw
    exact fields_word (h w hw).1 (h w hw).2
  rw [h1]
  have h2 : ∀ (l : List Str), (l.map (fun w => [w])).flatten = l := by
    intro l
    induction l with
    | nil => simp
    | cons x xs ih => simp [ih]
  exact h2 ws

theorem fields_trimLeft (s : Str) : fields (trimLeft s) = fields s := by
  induction s with
  | nil => simp [trimLeft]
  | cons c cs ih =>
    by_cases h : goIsSpace c
    · rw [fields_cons_space h, trimLeft, List.dropWhile_cons, if_pos h]
      exact ih
    · rw [trimLeft, List.dropWhile_cons, if_neg h]

theorem fields_append_all_space {s t : Str} (h : ∀ c ∈ t, goIsSpace c = true) :
    fields (s ++ t) = fields s := by
  cases t with
  | nil => simp
  | cons c cs =>
    rw [fields_append_space (h c (List.mem_cons_self c cs)) s cs,
      fields_all_space (fun d hd => h d (List.mem_cons_of_mem c hd)), List.append_nil]

theorem fields_trimRight (s : Str) : fields (trimRight s) = fields s := by
  have hs : s = trimRight s ++ (s.reverse.takeWhile goIsSpace).reverse := by
    unfold trimRight
    rw [← List.reverse_append, List.takeWhile_append_dropWhile, List.reverse_reverse]
  conv_rhs => rw [hs]
  rw [fields_append_all_space]
  intro c hc
  exact List.mem_takeWhile_imp (by simpa using hc)

theorem fields_trim (s : Str) : fields (trim s) = fields s := by
  rw [trim, fields_trimRight, fields_trimLeft]

/-- A non-space character survives into `fields`. -/
theorem fields_ne_nil_of_nospace {s : Str} {c : Char} (hc : c ∈ s) (hns : goIsSpace c = false) :
    fields s ≠ [] := by
  induction s using fields_induct with
  | h1 => simp at hc
  | h2 d ds h ih =>
    rw [fields_cons_space h]
    rcases List.mem_cons.mp hc with h1 | h1
    · subst h1
      rw [hns] at h
      simp at h
    · exact ih h1
  | h3 d ds h ih =>
    rw [fields_cons_nospace (by simpa using h)]
    simp

/-- The trimmed string is empty iff the string is all white space. -/
theorem trim_eq_nil_iff (s : Str) : trim s = [] ↔ ∀ c ∈ s, goIsSpace c = true := by
  constructor
  · intro h c hc
    by_contra hns
    have h1 := fields_ne_nil_of_nospace hc (by simpa using hns)
    rw [← fields_trim, h] at h1
    simp at h1
  · intro h
    have h1 : trimLeft s = [] := by
      simp only [trimLeft, List.dropWhile_eq_nil_iff]
      exact h
    simp [trim, h1, trimRight]

/-- A trimmed-non-empty string contains a non-space character. -/
theorem exists_nospace_of_trim_ne_nil {s : Str} (h : trim s ≠ []) :
    ∃ c ∈ s, goIsSpace c = false := by
  by_contra hc
  push_neg at hc
  exact h ((trim_eq_nil_iff s).mpr (fun c hm => by simpa using hc c hm))

/-! ## Chunker data model (internal/ingestion/chunker.go) -/

/-- `ingestion.Chunk`: a piece of chunked content. -/
structure Chunk where
  content : Str
  index : Nat
  metadata : List (String × String)
deriving Repr, DecidableEq

/-- `repository.ChunkerConfig`.  Go `int` fields are modelled as `Int`. -/
structure ChunkerConfig where
  method : String
  targetSize : Int
  maxSize : Int
  overlap : Int
deriving Repr, DecidableEq

/-- Go map read `m[k]` (comma-ok form). -/
def mapGet (m : List (String × String)) (k : String) : Option String :=
  (m.find? (fun p => p.1 == k)).map (fun p => p.2)

/-- Go map write `m[k] = v`. -/
def mapSet (m : List (String × String)) (k v : String) : List (String × String) :=
  if m.any (fun p => p.1 == k) then m.map (fun p => if p.1 == k then (k, v) else p)
  else m ++ [(k, v)]

/-- `intToString` (strconv.Itoa). -/
def intToString (n : Nat) : String := toString n

/-- `copyMetadata`: copies a metadata map (`nil` becomes an empty map). -/
def copyMetadata (m : List (String × String)) : List (String × String) := m

/-- `NewChunker`: applies defaults to unset configuration fields.  The
resulting config always has positive sizes, a non-negative overlap and a
non-empty method. -/
def newChunker (config : ChunkerConfig) : ChunkerConfig :=
  let c1 := if config.targetSize ≤ 0 then { config with targetSize := 512 } else config
  let c2 := if c1.maxSize ≤ 0 then { c1 with maxSize := 1024 } else c1
  let c3 := if c2.overlap < 0 then { c2 with overlap := 50 } else c2
  if c3.method = "" then { c3 with method := "semantic" } else c3

theorem newChunker_targetSize_pos (config : ChunkerConfig) :
    0 < (newChunker config).targetSize := by
  unfold newChunker
  dsimp only
  split <;> split <;> split <;> split <;> simp_all <;> omega

theorem newChunker_overlap_nonneg (config : ChunkerConfig) :
    0 ≤ (newChunker config).overlap := by
  unfold newChunker
  dsimp only
  split <;> split <;> split <;> split <;> simp_all <;> omega

/-- Word counts are used as the token proxy (`estimateTokens`). -/
def estimateTokens (text : Str) : Nat := (fields text).length

/-! ### Fixed chunking (`chunkFixed`) -/

/-- The stride guard used by `chunkFixed` and `splitLongSentence`:
`step := target - overlap; if step <= 0 { step = target/2; if step <= 0 { step = 1 } }`.
Sizes are `Nat` here because the chunkers run on a `newChunker`-normalised
config (positive sizes, non-negative overlap); `target - overlap ≤ 0` over
the integers is then equivalent to truncated subtraction being zero. -/
def stepSize (target overlap : Nat) : Nat :=
  let step := target - overlap
  if step = 0 then
    let half := target / 2
    if half = 0 then 1 else half
  else step

theorem stepSize_pos (target overlap : Nat) : 1 ≤ stepSize target overlap := by
  unfold stepSize
  dsimp only
  split
  · split
    · exact Nat.le_refl 1
    · omega
  · omega

theorem stepSize_le (target overlap : Nat) (h : 1 ≤ target) :
    stepSize target overlap ≤ target := by
  unfold stepSize
  dsimp only
  split
  · split <;> omega
  · omega

/-- The word-window loop shared by `chunkFixed` and `splitLongSentence`:
emit `words[i:i+target]` windows advancing by the guarded stride, breaking
once a window reaches the end.  `mk` builds the emitted chunk from the
window and the number of chunks already accumulated; the loop is expressed
on the remaining word suffix. -/
def windowLoop (target overlap : Nat) (mk : List Str → Nat → Chunk)
    (chunks : List Chunk) (ws : List Str) : List Chunk :=
  if ws.isEmpty then chunks
  else
    let c := mk (ws.take target) chunks.length
    if ws.length ≤ target then chunks ++ [c]
    else windowLoop target overlap mk (chunks ++ [c]) (ws.drop (stepSize target overlap))
termination_by ws.length
decreasing_by
  rename_i hne _
  have h1 : 1 ≤ stepSize target overlap := stepSize_pos target overlap
  have h2 : ws ≠ [] := by simpa [List.isEmpty_iff] using hne
  have h3 : 0 < ws.length := List.length_pos.mpr h2
  simp only [List.length_drop]
  omega

/-- The chunk constructor used by `chunkFixed`. -/
def mkFixedChunk (chunkWords : List Str) (n : Nat) : Chunk :=
  { content := List.intercalate [' '] chunkWords
    index := n
    metadata := [("method", "fixed"), ("word_count", intToString chunkWords.length)] }

/-- `chunkFixed`: split content into fixed-size word windows with overlap. -/
def chunkFixed (cfg : ChunkerConfig) (content : Str) : List Chunk :=
  let words := fields content
  if words.isEmpty then []
  else windowLoop cfg.targetSize.toNat cfg.overlap.toNat mkFixedChunk [] words

/-- The token stream of a chunk list: word lists of the chunk contents,
concatenated in order. -/
def chunkTokens (chunks : List Chunk) : List Str :=
  (chunks.map (fun c => fields c.content)).flatten

theorem chunkTokens_append (a b : List Chunk) :
    chunkTokens (a ++ b) = chunkTokens a ++ chunkTokens b := by
  simp [chunkTokens]

/-- Non-empty space-free word lists (as produced by `fields`). -/
def GoodWords (ws : List Str) : Prop :=
  ∀ w ∈ ws, w ≠ [] ∧ ∀ c ∈ w, goIsSpace c = false

theorem goodWords_fields (s : Str) : GoodWords (fields s) :=
  fun _ hw => ⟨fields_ne_nil hw, fields_nospace hw⟩

theorem GoodWords.sublist {ws vs : List Str} (h : GoodWords ws) (hs : vs.Sublist ws) :
    GoodWords vs :=
  fun w hw => h w (hs.mem hw)

/-- Every token of the remaining word suffix survives, in order, into the
window chunks emitted by `windowLoop`, for any chunk constructor whose
content is the space-join of the window. -/
theorem windowLoop_tokens (target overlap : Nat) (mk : List Str → Nat → Chunk)
    (ht : 1 ≤ target) (hmk : ∀ cw n, (mk cw n).content = List.intercalate [' '] cw) :
    ∀ (chunks : List Chunk) (ws : List Str), GoodWords ws →
      (chunkTokens chunks ++ ws).Sublist (chunkTokens (windowLoop target overlap mk chunks ws)) := by
  intro chunks ws
  induction chunks, ws using windowLoop.induct target overlap mk with
  | case1 chunks ws hemp =>
    intro _
    rw [windowLoop, if_pos hemp]
    simp [List.isEmpty_iff.mp hemp]
  | case2 chunks ws hemp hle =>
    intro hgood
    rw [windowLoop, if_neg hemp]
    simp only [if_pos hle, chunkTokens_append]
    have hcw : ws.take target = ws := List.take_of_length_le hle
    have hfc : fields (mk (ws.take target) chunks.length).content = ws := by
      rw [hmk, hcw]
      exact fields_intercalate_words hgood
    simp [chunkTokens, hfc]
  | case3 chunks ws hemp c hgt ih =>
    intro hgood
    rw [windowLoop, if_neg hemp]
    simp only [if_neg hgt]
    have hstep_le : stepSize target overlap ≤ target := stepSize_le target overlap ht
    have hgood' : GoodWords (ws.drop (stepSize target overlap)) :=
      hgood.sublist (List.drop_sublist _ _)
    have ih' := ih hgood'
    have hpre : (ws.take (stepSize target overlap)).Sublist (ws.take target) := by
      rw [show ws.take (stepSize target overlap) = (ws.take target).take (stepSize target overlap) by
        rw [List.take_take, Nat.min_eq_left hstep_le]]
      exact List.take_sublist _ _
    have hfc : fields (mk (ws.take target) chunks.length).content = ws.take target := by
      rw [hmk]
      exact fields_intercalate_words (hgood.sublist (List.take_sublist _ _))
    have h1 : (chunkTokens chunks ++ (ws.take (stepSize target overlap) ++
        ws.drop (stepSize target overlap))).Sublist
        (chunkTokens (chunks ++ [mk (ws.take target) chunks.length]) ++
          ws.drop (stepSize target overlap)) := by
      rw [← List.append_assoc, chunkTokens_append]
      apply List.Sublist.append _ (List.Sublist.refl _)
      apply List.Sublist.append (List.Sublist.refl _)
      simpa [chunkTokens, hfc] using hpre.trans (List.Sublist.refl _)
    have h2 := h1.trans ih'
    rw [List.take_append_drop] at h2
    exact h2

/-- Chunk index values counted from `k`: chunk `i` carries index `k + i`. -/
def denseFrom (k : Nat) (l : List Chunk) : Prop :=
  ∀ i (h : i < l.length), (l.get ⟨i, h⟩).index = k + i

theorem denseFrom_append {k : Nat} {a b : List Chunk}
    (ha : denseFrom k a) (hb : denseFrom (k + a.length) b) : denseFrom k (a ++ b) := by
  intro i h
  by_cases hi : i < a.length
  · rw [List.get_append_left _ _ hi]
    exact ha i hi
  · have h2 : i - a.length < b.length := by
      have := List.length_append a b ▸ h
      omega
    have h3 : (a ++ b).get ⟨i, h⟩ = b.get ⟨i - a.length, h2⟩ := by
      apply List.get_append_right
      omega
    rw [h3, hb (i - a.length) h2]
    omega

theorem denseFrom_singleton {k : Nat} {c : Chunk} (h : c.index = k) : denseFrom k [c] := by
  intro i hi
  match i, hi with
  | 0, _ => simpa using h

/-- The shape every emitted chunk must satisfy: non-empty content and a
`method` metadata key. -/
def ChunkShape (method : String) (c : Chunk) : Prop :=
  c.content ≠ [] ∧ mapGet c.metadata "method" = some method

/-- The space-join of a non-empty list of non-empty words is non-empty. -/
theorem intercalate_space_ne_nil {ws : List Str} (hne : ws ≠ [])
    (h : ∀ w ∈ ws, w ≠ []) : List.intercalate [' '] ws ≠ [] := by
  match ws, hne with
  | w :: rest, _ =>
    cases rest with
    | nil =>
      simpa [List.intercalate] using h w (by simp)
    | cons v vs =>
      have hstep : List.intercalate [' '] (w :: v :: vs)
          = w ++ ' ' :: List.intercalate [' '] (v :: vs) := by
        simp [List.intercalate, List.intersperse]
      rw [hstep]
      intro hcontra
      have := congrArg List.length hcontra
      simp at this

/-- Shape and index invariant for `windowLoop`. -/
theorem windowLoop_shape (target overlap : Nat) (mk : List Str → Nat → Chunk)
    (method : String) (base : Nat) (ht : 1 ≤ target)
    (hmk : ∀ cw n, cw ≠ [] → (∀ w ∈ cw, w ≠ []) → ChunkShape method (mk cw n))
    (hidx : ∀ cw n, (mk cw n).index = base + n) :
    ∀ (chunks : List Chunk) (ws : List Str), GoodWords ws →
      (∀ c ∈ chunks, ChunkShape method c) → denseFrom base chunks →
      (∀ c ∈ windowLoop target overlap mk chunks ws, ChunkShape method c) ∧
        denseFrom base (windowLoop target overlap mk chunks ws) := by
  intro chunks ws
  induction chunks, ws using windowLoop.induct target overlap mk with
  | case1 chunks ws hemp =>
    intro _ hsh hd
    rw [windowLoop, if_pos hemp]
    exact ⟨hsh, hd⟩
  | case2 chunks ws hemp hle =>
    intro hgood hsh hd
    rw [windowLoop, if_neg hemp]
    simp only [if_pos hle]
    have hwne : ws ≠ [] := by simpa [List.isEmpty_iff] using hemp
    have htk : ws.take target ≠ [] := by
      intro hcontra
      have := congrArg List.length hcontra
      simp only [List.length_take, List.length_nil] at this
      have hl : 0 < ws.length := List.length_pos.mpr hwne
      omega
    have hc := hmk (ws.take target) chunks.length htk
      (fun w hw => (hgood w (List.mem_of_mem_take hw)).1)
    constructor
    · intro c hc2
      rcases List.mem_append.mp hc2 with h1 | h1
      · exact hsh c h1
      · rw [List.mem_singleton.mp h1]
        exact hc
    · exact denseFrom_append hd (denseFrom_singleton (by rw [hidx]))
  | case3 chunks ws hemp c hgt ih =>
    intro hgood hsh hd
    rw [windowLoop, if_neg hemp]
    simp only [if_neg hgt]
    have hwne : ws ≠ [] := by simpa [List.isEmpty_iff] using hemp
    have htk : ws.take target ≠ [] := by
      intro hcontra
      have := congrArg List.length hcontra
      simp only [List.length_take, List.length_nil] at this
      have hl : 0 < ws.length := List.length_pos.mpr hwne
      omega
    have hcsh := hmk (ws.take target) chunks.length htk
      (fun w hw => (hgood w (List.mem_of_mem_take hw)).1)
    apply ih
    · exact hgood.sublist (List.drop_sublist _ _)
    · intro d hd2
      rcases List.mem_append.mp hd2 with h1 | h1
      · exact hsh d h1
      · rw [List.mem_singleton.mp h1]
        exact hcsh
    · exact denseFrom_append hd (denseFrom_singleton (by rw [hidx]))

/-! ### Sentence chunking (`chunkSentence`, `splitSentences`) -/

/-- Go `strings.ToLower` (rune-wise). -/
def goToLower (s : Str) : Str := s.map Char.toLower

/-- The abbreviation blacklist of `isAbbreviation`. -/
def abbreviations : List Str :=
  [ "mr.", "mrs.", "ms.", "dr.", "prof.",
    "inc.", "ltd.", "corp.",
    "etc.", "e.g.", "i.e.",
    "vs.", "v.",
    "st.", "ave.", "blvd.",
    "no.", "vol.", "pg." ].map String.toList

/-- `isAbbreviation`: the lower-cased text ends in a known abbreviation. -/
def isAbbreviation (text : Str) : Bool :=
  abbreviations.any (fun abbr => abbr.isSuffixOf (goToLower text))

/-- Sentence-terminal punctuation of `splitSentences`. -/
def isSentenceEnd (c : Char) : Bool := c == '.' || c == '!' || c == '?'

/-- The rune loop of `splitSentences`: `cur` is the accumulated current
sentence, the second argument the remaining runes. -/
def splitLoop : Str → Str → List Str
  | cur, [] =>
    let remaining := trim cur
    if remaining.isEmpty then [] else [remaining]
  | cur, r :: rest =>
    let cur' := cur ++ [r]
    if isSentenceEnd r && (rest.isEmpty || goIsSpace (rest.headD ' ')) then
      let s := trim cur'
      if !s.isEmpty && !isAbbreviation s then s :: splitLoop [] rest
      else splitLoop cur' rest
    else splitLoop cur' rest

/-- `splitSentences`: split text into sentences at terminal punctuation
followed by white space or end of text, suppressing abbreviation splits. -/
def splitSentences (text : Str) : List Str :=
  let text := trim text
  if text.isEmpty then [] else splitLoop [] text

/-- `createSentenceChunk`. -/
def createSentenceChunk (sentences : List Str) (index : Nat) : Chunk :=
  let content := List.intercalate [' '] sentences
  { content := trim content
    index := index
    metadata := [("method", "sentence"),
      ("sentence_count", intToString sentences.length),
      ("word_count", intToString (fields content).length)] }

/-- The backwards collection loop of `calculateSentenceOverlap`; the input
is the sentence list reversed. -/
def overlapGo (overlap : Nat) : List Str → List Str × Nat → List Str × Nat
  | [], acc => acc
  | s :: rest, (os, ow) =>
    if ow < overlap then overlapGo overlap rest (s :: os, ow + (fields s).length)
    else (os, ow)

/-- `calculateSentenceOverlap`: keep the trailing sentences whose aggregate
word count first reaches the configured overlap. -/
def calculateSentenceOverlap (overlap : Nat) (sentences : List Str) : List Str × Nat :=
  if overlap = 0 || sentences.isEmpty then ([], 0)
  else overlapGo overlap sentences.reverse ([], 0)

/-- The chunk constructor of `splitLongSentence` (index counted from
`startIndex`). -/
def mkSplitChunk (startIndex : Nat) (chunkWords : List Str) (n : Nat) : Chunk :=
  { content := List.intercalate [' '] chunkWords
    index := startIndex + n
    metadata := [("method", "sentence"),
      ("word_count", intToString chunkWords.length),
      ("split", "true")] }

/-- `splitLongSentence`: fixed windowing over one over-long sentence. -/
def splitLongSentence (target overlap : Nat) (sentence : Str) (startIndex : Nat) : List Chunk :=
  windowLoop target overlap (mkSplitChunk startIndex) [] (fields sentence)

/-- Loop state of `chunkSentence`: accumulated chunks, current sentences,
current word count. -/
structure SentState where
  chunks : List Chunk
  cur : List Str
  cnt : Nat

/-- Flush the current sentences into a chunk and carry the overlap back
(`chunks = append(...); currentSentences, currentWordCount =
calculateSentenceOverlap(...)`). -/
def flushOverlap (overlap : Nat) (st : SentState) : SentState :=
  { chunks := st.chunks ++ [createSentenceChunk st.cur st.chunks.length]
    cur := (calculateSentenceOverlap overlap st.cur).1
    cnt := (calculateSentenceOverlap overlap st.cur).2 }

/-- One iteration of the sentence loop of `chunkSentence`. -/
def sentenceStep (target maxSize overlap : Nat) (st : SentState) (sentence : Str) : SentState :=
  let sentenceWords := (fields sentence).length
  -- flush when adding the sentence would exceed the max size
  let st :=
    if st.cnt + sentenceWords > maxSize ∧ st.cnt > 0 then flushOverlap overlap st
    else st
  -- a single sentence over the max size is split by fixed windowing
  if sentenceWords > maxSize then
    let st :=
      if st.cnt > 0 then
        { chunks := st.chunks ++ [createSentenceChunk st.cur st.chunks.length]
          cur := [], cnt := 0 }
      else st
    { st with chunks := st.chunks ++ splitLongSentence target overlap sentence st.chunks.length }
  else
    let st := { st with cur := st.cur ++ [sentence], cnt := st.cnt + sentenceWords }
    if st.cnt ≥ target then flushOverlap overlap st
    else st

/-- `chunkSentence`: group sentences until the target size, flushing on the
max size, with sentence-level overlap carry. -/
def chunkSentence (cfg : ChunkerConfig) (content : Str) : List Chunk :=
  let sentences := splitSentences content
  if sentences.isEmpty then []
  else
    let st := sentences.foldl
      (sentenceStep cfg.targetSize.toNat cfg.maxSize.toNat cfg.overlap.toNat)
      { chunks := [], cur := [], cnt := 0 }
    if st.cur.isEmpty then st.chunks
    else st.chunks ++ [createSentenceChunk st.cur st.chunks.length]

/-- The token streams of the sentences of `splitLoop` concatenate to the
token stream of the input: sentence splitting loses no word. -/
theorem splitLoop_fields (cur rem : Str) :
    ((splitLoop cur rem).map fields).flatten = fields (cur ++ rem) := by
  induction cur, rem using splitLoop.induct with
  | case1 cur remaining hemp =>
    rw [splitLoop]
    simp only [if_pos hemp]
    have h0 : trim cur = [] := List.isEmpty_iff.mp hemp
    have h1 : fields cur = [] := by
      rw [← fields_trim, h0, fields_nil]
    simp [h1]
  | case2 cur remaining hemp =>
    rw [splitLoop]
    simp only [if_neg hemp]
    simp [fields_trim]
  | case3 cur r rest cur' hsplit s hkeep ih =>
    rw [splitLoop]
    simp only [if_pos hsplit, if_pos hkeep, List.map_cons, List.flatten_cons]
    rw [ih]
    show fields (trim (cur ++ [r])) ++ fields ([] ++ rest) = fields (cur ++ r :: rest)
    rw [fields_trim, List.nil_append]
    cases rest with
    | nil => simp
    | cons x rest' =>
      have hx : goIsSpace x = true := by
        simp only [List.isEmpty_cons, Bool.or_false, Bool.false_or, List.headD_cons,
          Bool.and_eq_true] at hsplit
        exact hsplit.2
      rw [show cur ++ r :: x :: rest' = (cur ++ [r]) ++ x :: rest' by simp]
      rw [fields_append_space hx (cur ++ [r]) rest', fields_cons_space hx]
  | case4 cur r rest cur' hsplit s hnkeep ih =>
    rw [splitLoop]
    simp only [if_pos hsplit, if_neg hnkeep]
    rw [ih]
    show fields ((cur ++ [r]) ++ rest) = fields (cur ++ r :: rest)
    rw [List.append_assoc]
    rfl
  | case5 cur r rest cur' hnsplit ih =>
    rw [splitLoop]
    simp only [if_neg hnsplit]
    rw [ih]
    show fields ((cur ++ [r]) ++ rest) = fields (cur ++ r :: rest)
    rw [List.append_assoc]
    rfl

/-- `splitSentences` loses no word. -/
theorem splitSentences_fields (text : Str) :
    ((splitSentences text).map fields).flatten = fields text := by
  unfold splitSentences
  dsimp only
  by_cases h : (trim text).isEmpty
  · rw [if_pos h]
    have h0 : trim text = [] := List.isEmpty_iff.mp h
    have h1 : fields text = [] := by rw [← fields_trim, h0, fields_nil]
    simp [h1]
  · rw [if_neg h, splitLoop_fields, List.nil_append, fields_trim]

/-- Non-space characters survive trimming. -/
theorem mem_trim_of_nospace {s : Str} {c : Char} (hc : c ∈ s) (hns : goIsSpace c = false) :
    c ∈ trim s := by
  have h1 : c ∈ trimLeft s := by
    unfold trimLeft
    have := (List.takeWhile_append_dropWhile (p := goIsSpace) (l := s)) ▸ hc
    rcases List.mem_append.mp this with h2 | h2
    · rw [List.mem_takeWhile_imp h2] at hns
      simp at hns
    · exact h2
  unfold trim trimRight
  have h2 : c ∈ (trimLeft s).reverse := by simpa using h1
  have := (List.takeWhile_append_dropWhile (p := goIsSpace) (l := (trimLeft s).reverse)) ▸ h2
  rcases List.mem_append.mp this with h3 | h3
  · rw [List.mem_takeWhile_imp h3] at hns
    simp at hns
  · simpa using h3

/-- A non-empty trim output contains a non-space character. -/
theorem trim_has_nospace {s : Str} (h : trim s ≠ []) :
    ∃ c ∈ trim s, goIsSpace c = false := by
  obtain ⟨c, hc, hns⟩ := exists_nospace_of_trim_ne_nil h
  exact ⟨c, mem_trim_of_nospace hc hns, hns⟩

/-- Every sentence emitted by `splitLoop` contains a non-space character,
hence carries at least one word. -/
theorem splitLoop_sentence_words (cur rem : Str) :
    ∀ s ∈ splitLoop cur rem, fields s ≠ [] := by
  induction cur, rem using splitLoop.induct with
  | case1 cur remaining hemp =>
    rw [splitLoop]
    simp only [if_pos hemp]
    intro s hs
    simp at hs
  | case2 cur remaining hemp =>
    rw [splitLoop]
    simp only [if_neg hemp]
    intro s hs
    rw [List.mem_singleton.mp hs]
    have h0 : trim cur ≠ [] := by simpa [List.isEmpty_iff] using hemp
    obtain ⟨c, hc, hns⟩ := trim_has_nospace h0
    exact fields_ne_nil_of_nospace hc hns
  | case3 cur r rest cur' hsplit s hkeep ih =>
    rw [splitLoop]
    simp only [if_pos hsplit, if_pos hkeep]
    intro t ht
    rcases List.mem_cons.mp ht with h1 | h1
    · subst h1
      have h0 : trim (cur ++ [r]) ≠ [] := by
        have := (Bool.and_eq_true _ _).mp hkeep
        simpa [List.isEmpty_iff] using this.1
      obtain ⟨c, hc, hns⟩ := trim_has_nospace h0
      exact fields_ne_nil_of_nospace hc hns
    · exact ih t h1
  | case4 cur r rest cur' hsplit s hnkeep ih =>
    rw [splitLoop]
    simp only [if_pos hsplit, if_neg hnkeep]
    exact ih
  | case5 cur r rest cur' hnsplit ih =>
    rw [splitLoop]
    simp only [if_neg hnsplit]
    exact ih

theorem splitSentences_words (text : Str) :
    ∀ s ∈ splitSentences text, fields s ≠ [] := by
  unfold splitSentences
  dsimp only
  by_cases h : (trim text).isEmpty
  · rw [if_pos h]
    intro s hs
    simp at hs
  · rw [if_neg h]
    exact splitLoop_sentence_words [] (trim text)

/-- The token stream of a sentence list. -/
def sentTokens (sentences : List Str) : List Str :=
  (sentences.map fields).flatten

theorem sentTokens_append (a b : List Str) :
    sentTokens (a ++ b) = sentTokens a ++ sentTokens b := by
  simp [sentTokens]

/-- The content of a sentence chunk carries exactly the tokens of its
sentences. -/
theorem fields_createSentenceChunk (sentences : List Str) (i : Nat) :
    fields (createSentenceChunk sentences i).content = sentTokens sentences := by
  show fields (trim (List.intercalate [' '] sentences)) = sentTokens sentences
  rw [fields_trim, fields_intercalate]
  rfl

/-- A sentence chunk over sentences with at least one word is non-empty. -/
theorem createSentenceChunk_ne_nil {sentences : List Str} (i : Nat)
    (hne : sentences ≠ []) (hw : ∀ s ∈ sentences, fields s ≠ []) :
    (createSentenceChunk sentences i).content ≠ [] := by
  intro hcontra
  have h1 : fields (createSentenceChunk sentences i).content = [] := by
    rw [hcontra, fields_nil]
  rw [fields_createSentenceChunk] at h1
  match sentences, hne with
  | s :: rest, _ =>
    have hne2 : fields s ≠ [] := hw s (by simp)
    simp only [sentTokens, List.map_cons, List.flatten_cons] at h1
    exact hne2 (List.append_eq_nil.mp h1).1

theorem createSentenceChunk_shape {sentences : List Str} {i : Nat}
    (hne : sentences ≠ []) (hw : ∀ s ∈ sentences, fields s ≠ []) :
    ChunkShape "sentence" (createSentenceChunk sentences i) := by
  refine ⟨createSentenceChunk_ne_nil i hne hw, ?_⟩
  rfl

/-- `overlapGo` keeps its word-count accumulator consistent and only
collects sentences from its input. -/
theorem overlapGo_inv (overlap : Nat) (P : Str → Prop) :
    ∀ (rem os : List Str) (ow : Nat),
      ow = (os.map (fun s => (fields s).length)).sum →
      (∀ s ∈ os, P s) → (∀ s ∈ rem, P s) →
      (overlapGo overlap rem (os, ow)).2 =
          ((overlapGo overlap rem (os, ow)).1.map (fun s => (fields s).length)).sum ∧
        ∀ s ∈ (overlapGo overlap rem (os, ow)).1, P s := by
  intro rem
  induction rem with
  | nil =>
    intro os ow h1 h2 _
    rw [overlapGo]
    exact ⟨h1, h2⟩
  | cons s rest ih =>
    intro os ow h1 h2 h3
    rw [overlapGo]
    by_cases hlt : ow < overlap
    · simp only [if_pos hlt]
      apply ih
      · simp only [List.map_cons, List.sum_cons, h1]
        omega
      · intro t ht
        rcases List.mem_cons.mp ht with h4 | h4
        · exact h4 ▸ h3 s (by simp)
        · exact h2 t h4
      · intro t ht
        exact h3 t (by simp [ht])
    · simp only [if_neg hlt]
      exact ⟨h1, h2⟩

/-- `calculateSentenceOverlap` returns sentences of its input with a
consistent word count. -/
theorem calculateSentenceOverlap_inv (overlap : Nat) (P : Str → Prop)
    (sentences : List Str) (hp : ∀ s ∈ sentences, P s) :
    (calculateSentenceOverlap overlap sentences).2 =
        ((calculateSentenceOverlap overlap sentences).1.map
          (fun s => (fields s).length)).sum ∧
      ∀ s ∈ (calculateSentenceOverlap overlap sentences).1, P s := by
  unfold calculateSentenceOverlap
  by_cases h : overlap = 0 || sentences.isEmpty
  · simp only [if_pos h]
    constructor
    · simp
    · intro s hs
      simp at hs
  · simp only [if_neg h]
    apply overlapGo_inv
    · simp
    · intro s hs
      simp at hs
    · intro s hs
      exact hp s (by simpa using hs)

/-- Loop invariant of `chunkSentence`: tokens of the processed sentences
survive into the accumulated chunks plus the pending sentences; accumulated
chunks are well-shaped with dense indices; pending sentences carry words and
`cnt` is their word count. -/
def SentInv (done : List Str) (st : SentState) : Prop :=
  (sentTokens done).Sublist (chunkTokens st.chunks ++ sentTokens st.cur) ∧
  (∀ c ∈ st.chunks, ChunkShape "sentence" c) ∧
  denseFrom 0 st.chunks ∧
  (∀ s ∈ st.cur, fields s ≠ []) ∧
  st.cnt = (st.cur.map (fun s => (fields s).length)).sum

theorem cur_ne_nil_of_cnt_pos {st : SentState}
    (hcnt : st.cnt = (st.cur.map (fun s => (fields s).length)).sum)
    (hpos : 0 < st.cnt) : st.cur ≠ [] := by
  intro hcontra
  rw [hcontra] at hcnt
  simp at hcnt
  omega

theorem flushOverlap_inv (overlap : Nat) {done : List Str} {st : SentState}
    (hinv : SentInv done st) (hpos : 0 < st.cnt) :
    SentInv done (flushOverlap overlap st) := by
  obtain ⟨htok, hsh, hd, hcw, hcnt⟩ := hinv
  have hne : st.cur ≠ [] := cur_ne_nil_of_cnt_pos hcnt hpos
  have hov := calculateSentenceOverlap_inv overlap (fun s => fields s ≠ []) st.cur hcw
  refine ⟨?_, ?_, ?_, hov.2, hov.1⟩
  · show (sentTokens done).Sublist
      (chunkTokens (st.chunks ++ [createSentenceChunk st.cur st.chunks.length]) ++ _)
    rw [chunkTokens_append]
    have h1 : chunkTokens [createSentenceChunk st.cur st.chunks.length] = sentTokens st.cur := by
      simp [chunkTokens, fields_createSentenceChunk]
    rw [h1]
    exact htok.trans (List.sublist_append_left _ _)
  · intro c hc
    rcases List.mem_append.mp hc with h1 | h1
    · exact hsh c h1
    · rw [List.mem_singleton.mp h1]
      exact createSentenceChunk_shape hne hcw
  · exact denseFrom_append hd (denseFrom_singleton (by simp [createSentenceChunk]))

/-- The per-sentence step of `chunkSentence` preserves the loop invariant. -/
theorem sentenceStep_inv (target maxSize overlap : Nat) (ht : 1 ≤ target)
    {done : List Str} {st : SentState} {sentence : Str}
    (hs : fields sentence ≠ []) (hinv : SentInv done st) :
    SentInv (done ++ [sentence]) (sentenceStep target maxSize overlap st sentence) := by
  unfold sentenceStep
  dsimp only
  set w := (fields sentence).length with hw
  -- state after the possible max-size flush
  set st1 := if st.cnt + w > maxSize ∧ st.cnt > 0 then flushOverlap overlap st else st with hst1
  have hinv1 : SentInv done st1 := by
    rw [hst1]
    split
    · exact flushOverlap_inv overlap hinv (by omega)
    · exact hinv
  obtain ⟨htok1, hsh1, hd1, hcw1, hcnt1⟩ := hinv1
  by_cases hbig : w > maxSize
  · rw [if_pos hbig]
    -- state after the possible plain flush
    set st2 := if st1.cnt > 0 then
        ({ chunks := st1.chunks ++ [createSentenceChunk st1.cur st1.chunks.length]
           cur := [], cnt := 0 } : SentState)
      else st1 with hst2
    have hinv2 : SentInv done st2 ∧ st2.cur = [] := by
      rw [hst2]
      split
      · rename_i hpos
        have hne : st1.cur ≠ [] := cur_ne_nil_of_cnt_pos hcnt1 hpos
        refine ⟨⟨?_, ?_, ?_, ?_, ?_⟩, rfl⟩
        · show (sentTokens done).Sublist
            (chunkTokens (st1.chunks ++ [createSentenceChunk st1.cur st1.chunks.length]) ++
              sentTokens [])
          rw [chunkTokens_append]
          have h1 : chunkTokens [createSentenceChunk st1.cur st1.chunks.length]
              = sentTokens st1.cur := by
            simp [chunkTokens, fields_createSentenceChunk]
          rw [h1]
          simpa [sentTokens] using htok1
        · intro c hc
          rcases List.mem_append.mp hc with h1 | h1
          · exact hsh1 c h1
          · rw [List.mem_singleton.mp h1]
            exact createSentenceChunk_shape hne hcw1
        · exact denseFrom_append hd1 (denseFrom_singleton (by simp [createSentenceChunk]))
        · intro s hs2
          simp at hs2
        · simp
      · rename_i hnpos
        have hzero : st1.cnt = 0 := by omega
        have hcurnil : st1.cur = [] := by
          by_contra hne
          match h1 : st1.cur, hne with
          | s :: rest, _ =>
            have h2 : fields s ≠ [] := hcw1 s (by rw [h1]; simp)
            have h3 : 1 ≤ (fields s).length := by
              have := List.length_pos.mpr h2
              omega
            rw [h1] at hcnt1
            simp only [List.map_cons, List.sum_cons] at hcnt1
            omega
        exact ⟨⟨htok1, hsh1, hd1, hcw1, hcnt1⟩, hcurnil⟩
    obtain ⟨⟨htok2, hsh2, hd2, hcw2, hcnt2⟩, hcur2⟩ := hinv2
    have hsplitTok : (fields sentence).Sublist
        (chunkTokens (splitLongSentence target overlap sentence st2.chunks.length)) := by
      have := windowLoop_tokens target overlap (mkSplitChunk st2.chunks.length) ht
        (fun cw n => rfl) [] (fields sentence) (goodWords_fields sentence)
      simpa [chunkTokens, splitLongSentence] using this
    have hsplitShape := windowLoop_shape target overlap (mkSplitChunk st2.chunks.length)
      "sentence" st2.chunks.length ht
      (fun cw n hne hnw => ⟨intercalate_space_ne_nil hne hnw, rfl⟩)
      (fun cw n => rfl) [] (fields sentence) (goodWords_fields sentence)
      (by intro c hc; simp at hc) (by intro i hi; simp at hi)
    refine ⟨?_, ?_, ?_, ?_, ?_⟩
    · show (sentTokens (done ++ [sentence])).Sublist
        (chunkTokens (st2.chunks ++ splitLongSentence target overlap sentence st2.chunks.length)
          ++ sentTokens st2.cur)
      rw [sentTokens_append, chunkTokens_append, hcur2]
      have h1 : (sentTokens done).Sublist (chunkTokens st2.chunks) := by
        have := htok2
        rw [hcur2] at this
        simpa [sentTokens] using this
      have h2 : (sentTokens [sentence]).Sublist
          (chunkTokens (splitLongSentence target overlap sentence st2.chunks.length)) := by
        simpa [sentTokens] using hsplitTok
      have := h1.append h2
      simpa [sentTokens] using this
    · intro c hc
      rcases List.mem_append.mp hc with h1 | h1
      · exact hsh2 c h1
      · exact hsplitShape.1 c h1
    · exact denseFrom_append hd2 (by simpa using hsplitShape.2)
    · exact hcw2
    · exact hcnt2
  · rw [if_neg hbig]
    -- append the sentence, then possibly soft-flush
    set st3 := ({ st1 with cur := st1.cur ++ [sentence], cnt := st1.cnt + w } : SentState) with hst3
    have hinv3 : SentInv (done ++ [sentence]) st3 := by
      refine ⟨?_, hsh1, hd1, ?_, ?_⟩
      · show (sentTokens (done ++ [sentence])).Sublist
          (chunkTokens st1.chunks ++ sentTokens (st1.cur ++ [sentence]))
        rw [sentTokens_append, sentTokens_append, ← List.append_assoc]
        exact htok1.append (List.Sublist.refl _)
      · intro s hs2
        rcases List.mem_append.mp hs2 with h1 | h1
        · exact hcw1 s h1
        · rw [List.mem_singleton.mp h1]
          exact hs
      · show st1.cnt + w = ((st1.cur ++ [sentence]).map (fun s => (fields s).length)).sum
        rw [List.map_append, List.sum_append, hcnt1]
        simp [hw]
    split
    · rename_i hge
      apply flushOverlap_inv overlap hinv3
      show 0 < st3.cnt
      have h1 : 1 ≤ w := by
        have := List.length_pos.mpr hs
        omega
      show 0 < st1.cnt + w
      omega
    · exact hinv3

/-- Folding the sentence loop preserves the invariant. -/
theorem sentenceFold_inv (target maxSize overlap : Nat) (ht : 1 ≤ target) :
    ∀ (sentences done : List Str) (st : SentState),
      (∀ s ∈ sentences, fields s ≠ []) → SentInv done st →
      SentInv (done ++ sentences)
        (sentences.foldl (sentenceStep target maxSize overlap) st) := by
  intro sentences
  induction sentences with
  | nil =>
    intro done st _ hinv
    simpa using hinv
  | cons s rest ih =>
    intro done st hw hinv
    rw [List.foldl_cons]
    have h1 := sentenceStep_inv target maxSize overlap ht (hw s (by simp)) hinv
    have h2 := ih (done ++ [s]) (sentenceStep target maxSize overlap st s)
      (fun t htm => hw t (by simp [htm])) h1
    simpa using h2

/-- Invariant consequences for the finished `chunkSentence`. -/
theorem chunkSentence_spec (cfg : ChunkerConfig) (content : Str)
    (ht : 1 ≤ cfg.targetSize.toNat) :
    (fields content).Sublist (chunkTokens (chunkSentence cfg content)) ∧
      (∀ c ∈ chunkSentence cfg content, ChunkShape "sentence" c) ∧
      denseFrom 0 (chunkSentence cfg content) := by
  unfold chunkSentence
  dsimp only
  by_cases hemp : (splitSentences content).isEmpty
  · rw [if_pos hemp]
    have h0 : splitSentences content = [] := List.isEmpty_iff.mp hemp
    have h1 : fields content = [] := by
      rw [← splitSentences_fields content, h0]
      simp
    refine ⟨by simp [h1, chunkTokens], by intro c hc; simp at hc, by intro i hi; simp at hi⟩
  · rw [if_neg hemp]
    have hinv0 : SentInv [] ⟨[], [], 0⟩ := by
      refine ⟨by simp [sentTokens, chunkTokens], ?_, ?_, ?_, by simp⟩
      · intro c hc
        simp at hc
      · intro i hi
        simp at hi
      · intro s hs
        simp at hs
    have hfold := sentenceFold_inv cfg.targetSize.toNat cfg.maxSize.toNat cfg.overlap.toNat ht
      (splitSentences content) [] ⟨[], [], 0⟩ (splitSentences_words content) hinv0
    rw [List.nil_append] at hfold
    set st := (splitSentences content).foldl
      (sentenceStep cfg.targetSize.toNat cfg.maxSize.toNat cfg.overlap.toNat)
      (⟨[], [], 0⟩ : SentState) with hst
    obtain ⟨htok, hsh, hd, hcw, hcnt⟩ := hfold
    have hcontent : sentTokens (splitSentences content) = fields content := by
      rw [← splitSentences_fields content]
      rfl
    by_cases hcur : st.cur.isEmpty
    · rw [if_pos hcur]
      have h1 : st.cur = [] := List.isEmpty_iff.mp hcur
      rw [← hcontent]
      refine ⟨?_, hsh, hd⟩
      have := htok
      rw [h1] at this
      simpa [sentTokens] using this
    · rw [if_neg hcur]
      have hne : st.cur ≠ [] := by simpa [List.isEmpty_iff] using hcur
      refine ⟨?_, ?_, ?_⟩
      · rw [← hcontent, chunkTokens_append]
        have h1 : chunkTokens [createSentenceChunk st.cur st.chunks.length]
            = sentTokens st.cur := by
          simp [chunkTokens, fields_createSentenceChunk]
        rw [h1]
        exact htok
      · intro c hc
        rcases List.mem_append.mp hc with h1 | h1
        · exact hsh c h1
        · rw [List.mem_singleton.mp h1]
          exact createSentenceChunk_shape hne hcw
      · exact denseFrom_append hd (denseFrom_singleton (by simp [createSentenceChunk]))

/-! ### Semantic chunking (`chunkSemantic`, `parseIntoBlocks`,
`groupBlocksIntoChunks`, `splitLargeBlock`, `addSemanticOverlap`) -/

/-- The backtick character (code-fence delimiter). -/
def backtick : Char := Char.ofNat 96

/-- The RE2 class `\w` = `[0-9A-Za-z_]`. -/
def isWordChar (c : Char) : Bool :=
  (('a' ≤ c && c ≤ 'z') || ('A' ≤ c && c ≤ 'Z') || ('0' ≤ c && c ≤ '9') || c == '_')

/-- Scan for the earliest closing triple backtick (the non-greedy `(.*?)` of
the code-fence pattern); returns the consumed text (closing fence included)
and the remainder. -/
def fenceClose : Str → Option (Str × Str)
  | b1 :: b2 :: b3 :: rest =>
    if b1 = backtick ∧ b2 = backtick ∧ b3 = backtick then some ([b1, b2, b3], rest)
    else
      match fenceClose (b2 :: b3 :: rest) with
      | some (m, r) => some (b1 :: m, r)
      | none => none
  | _ => none

/-- Match the code-fence pattern `` ```\w*\n(.*?)``` `` anchored at the
start of the string; returns the full match and the remainder. -/
def matchFenceAt (s : Str) : Option (Str × Str) :=
  match s with
  | b1 :: b2 :: b3 :: rest =>
    if b1 = backtick ∧ b2 = backtick ∧ b3 = backtick then
      let lang := rest.takeWhile isWordChar
      let rest2 := rest.dropWhile isWordChar
      match rest2 with
      | '\n' :: body =>
        match fenceClose body with
        | some (m, after) => some ([b1, b2, b3] ++ lang ++ '\n' :: m, after)
        | none => none
      | _ => none
    else none
  | _ => none

/-- The placeholder `___CODE_BLOCK_<i>___`. -/
def placeholderStr (i : Nat) : Str :=
  ("___CODE_BLOCK_" ++ toString i ++ "___").toList

/-- Left-to-right non-overlapping extraction of fenced code blocks,
replacing each by its placeholder and recording the placeholder map
(fuel-driven; the fuel is the string length, and every step consumes at
least one character). -/
def extractFences : Nat → Nat → Str → Str × List (Str × Str)
  | _, _, [] => ([], [])
  | 0, _, s => (s, [])
  | fuel + 1, i, c :: rest =>
    match matchFenceAt (c :: rest) with
    | some (m, after) =>
      let r := extractFences fuel (i + 1) after
      (placeholderStr i ++ r.1, (placeholderStr i, m) :: r.2)
    | none =>
      let r := extractFences fuel i rest
      (c :: r.1, r.2)

/-- Index of the last newline inside the white-space run (the greedy
backtracking point of `\n\s*\n`). -/
def lastNL (run : Str) : Option Nat :=
  match run.reverse.findIdx? (fun c => c == '\n') with
  | some k => some (run.length - 1 - k)
  | none => none

/-- Prepend a character to the first piece of a split result. -/
def consHead (c : Char) : List Str → List Str
  | [] => [[c]]
  | p :: ps => (c :: p) :: ps

/-- `regexp.Split` on `\n\s*\n` (blank-line paragraph separation): a match
is a newline followed by a white-space run that contains another newline;
greedily it extends to the last newline of the run. -/
def paraSplitGo : Nat → Str → List Str
  | _, [] => [[]]
  | 0, s => [s]
  | fuel + 1, c :: rest =>
    if c = '\n' then
      match lastNL (rest.takeWhile regexSpace) with
      | some k => [] :: paraSplitGo fuel (rest.drop (k + 1))
      | none => consHead c (paraSplitGo fuel rest)
    else consHead c (paraSplitGo fuel rest)

/-- `contentBlock`: a semantic block of content. -/
structure ContentBlock where
  blockType : String
  content : Str
  header : Str
  level : Nat
deriving Repr, DecidableEq

/-- Match one line against the ATX-heading pattern `^(#{1,6})\s+(.+)$`,
returning the level and the captured heading text. -/
def headerLineMatch (line : Str) : Option (Nat × Str) :=
  let hashes := line.takeWhile (fun c => c == '#')
  let n := hashes.length
  if 1 ≤ n ∧ n ≤ 6 then
    let t := line.drop n
    match t.head? with
    | none => none
    | some c =>
      if regexSpace c then
        let r := t.dropWhile regexSpace
        if r ≠ [] then some (n, r)
        else
          -- degenerate all-white-space remainder: `\s+` backtracks one char
          match t.getLast? with
          | some lc => if 2 ≤ t.length then some (n, [lc]) else none
          | none => none
      else none
  else none

/-- The first header line of a paragraph (multiline `FindStringSubmatch`). -/
def findHeaderLine (para : Str) : Option (Nat × Str) :=
  (para.splitOn '\n').findSome? headerLineMatch

/-- One line matching the table-row pattern `^\|.+\|$`. -/
def isTablePara (para : Str) : Bool :=
  (para.splitOn '\n').any (fun line =>
    decide (3 ≤ line.length) && line.head? == some '|' && line.getLast? == some '|')

/-- `isListBlock`: the first line starts a markdown list. -/
def isListBlock (content : Str) : Bool :=
  match content.splitOn '\n' with
  | [] => false
  | firstLine :: _ =>
    let fl := trim firstLine
    fl.take 2 == "- ".toList || fl.take 2 == "* ".toList || fl.take 2 == "+ ".toList ||
      (let ds := fl.takeWhile Char.isDigit
       decide (ds ≠ []) &&
         (match fl.drop ds.length with
          | '.' :: c :: _ => regexSpace c
          | _ => false))

/-- Placeholder shape test of `parseIntoBlocks`. -/
def isPlaceholderPara (para : Str) : Bool :=
  "___CODE_BLOCK_".toList.isPrefixOf para && "___".toList.isSuffixOf para

/-- Association lookup in the code-block map. -/
def assocLookup (m : List (Str × Str)) (k : Str) : Option Str :=
  (m.find? (fun p => p.1 == k)).map (fun p => p.2)

/-- The paragraph classification loop of `parseIntoBlocks`, carrying the
`(currentHeader, currentLevel)` context. -/
def classifyFold (codeMap : List (Str × Str)) :
    List Str → Str → Nat → List ContentBlock
  | [], _, _ => []
  | para0 :: rest, curH, curL =>
    let para := trim para0
    if para.isEmpty then classifyFold codeMap rest curH curL
    else if isPlaceholderPara para ∧ (assocLookup codeMap para).isSome then
      { blockType := "code", content := (assocLookup codeMap para).getD []
        header := curH, level := curL } :: classifyFold codeMap rest curH curL
    else
      match findHeaderLine para with
      | some (lvl, htext) =>
        { blockType := "header", content := para, header := htext, level := lvl } ::
          classifyFold codeMap rest htext lvl
      | none =>
        if isTablePara para then
          { blockType := "table", content := para, header := curH, level := curL } ::
            classifyFold codeMap rest curH curL
        else if isListBlock para then
          { blockType := "list", content := para, header := curH, level := curL } ::
            classifyFold codeMap rest curH curL
        else
          { blockType := "paragraph", content := para, header := curH, level := curL } ::
            classifyFold codeMap rest curH curL

/-- `parseIntoBlocks`: extract code fences, split on blank lines, classify. -/
def parseIntoBlocks (content : Str) : List ContentBlock :=
  let r := extractFences content.length 0 content
  let paragraphs := paraSplitGo r.1.length r.1
  classifyFold r.2 paragraphs [] 0

/-- The `[Section: <header>]` marker line of `flushChunk`. -/
def sectionMark (header : Str) : Str :=
  "[Section: ".toList ++ header ++ "]".toList

/-- The content-part assembly of `flushChunk` (the `headerAdded` flag and
the comparison against the first block). -/
def buildParts (first : ContentBlock) : List ContentBlock → Bool → List Str
  | [], _ => []
  | b :: rest, headerAdded =>
    if b.header ≠ [] ∧ headerAdded = false then
      if ¬(first.blockType = "header" ∧
          first.content = List.replicate b.level '#' ++ ' ' :: b.header) then
        sectionMark b.header :: b.content :: buildParts first rest true
      else b.content :: buildParts first rest false
    else b.content :: buildParts first rest headerAdded

/-- The state of the block-grouping loop. -/
structure GroupState where
  chunks : List Chunk
  curBlocks : List ContentBlock
  curWords : Nat
  curHeader : Str

/-- `flushChunk`: join the accumulated blocks (with a `[Section: …]` prefix
when a header context exists and the first block is not that header) into
one chunk with the semantic metadata. -/
def flushChunk (st : GroupState) : GroupState :=
  if st.curBlocks.isEmpty then st
  else
    let first := st.curBlocks.headD ⟨"paragraph", [], [], 0⟩
    let parts := buildParts first st.curBlocks false
    let content := List.intercalate "\n\n".toList parts
    let wordCount := (fields content).length
    let md := [("method", "semantic"), ("word_count", intToString wordCount)]
    let md := if st.curBlocks.any (fun b => b.blockType == "code") then
        mapSet md "contains_code" "true" else md
    let md := if st.curBlocks.any (fun b => b.blockType == "table") then
        mapSet md "contains_table" "true" else md
    let md := if st.curHeader ≠ [] then mapSet md "section" (String.mk st.curHeader) else md
    let newChunk : Chunk :=
      { content := trim content, index := st.chunks.length, metadata := md }
    { chunks := st.chunks ++ [newChunk],
      curBlocks := [], curWords := 0, curHeader := st.curHeader }

/-- The chunk constructor of `splitLargeBlock`. -/
def mkLargeChunk (header : Str) (sentences : List Str) (curWords : Nat) (idx : Nat) : Chunk :=
  let content := List.intercalate [' '] sentences
  let content := if header ≠ [] then
      sectionMark header ++ "\n\n".toList ++ content else content
  { content := trim content, index := idx
    metadata := [("method", "semantic"), ("word_count", intToString curWords),
      ("section", String.mk header), ("split", "true")] }

/-- One sentence step of `splitLargeBlock`. -/
def splitLargeStep (target : Nat) (header : Str)
    (st : List Chunk × List Str × Nat) (sentence : Str) : List Chunk × List Str × Nat :=
  let sw := (fields sentence).length
  let st :=
    if st.2.2 + sw > target ∧ st.2.2 > 0 then
      (st.1 ++ [mkLargeChunk header st.2.1 st.2.2 st.1.length], [], 0)
    else st
  (st.1, st.2.1 ++ [sentence], st.2.2 + sw)

/-- `splitLargeBlock`: split an over-long non-atomic block sentence-wise. -/
def splitLargeBlock (target : Nat) (block : ContentBlock) : List Chunk :=
  let sentences := splitSentences block.content
  let st := sentences.foldl (splitLargeStep target block.header) ([], [], 0)
  if st.2.1.isEmpty then st.1
  else st.1 ++ [mkLargeChunk block.header st.2.1 st.2.2 st.1.length]

/-- One block step of `groupBlocksIntoChunks`. -/
def groupStep (target maxSize : Nat) (st : GroupState) (block : ContentBlock) : GroupState :=
  let blockWords := (fields block.content).length
  let st := if block.blockType = "header" then { st with curHeader := block.header } else st
  let isAtomic := block.blockType = "code" ∨ block.blockType = "table"
  if blockWords > maxSize then
    let st := flushChunk st
    if isAtomic then flushChunk { st with curBlocks := st.curBlocks ++ [block] }
    else { st with chunks := st.chunks ++ splitLargeBlock target block }
  else if st.curWords + blockWords > target ∧ st.curWords > 0 then
    if isAtomic ∧ st.curWords + blockWords ≤ maxSize then
      flushChunk
        { st with curBlocks := st.curBlocks ++ [block], curWords := st.curWords + blockWords }
    else
      let st := flushChunk st
      { st with curBlocks := st.curBlocks ++ [block], curWords := st.curWords + blockWords }
  else { st with curBlocks := st.curBlocks ++ [block], curWords := st.curWords + blockWords }

/-- `groupBlocksIntoChunks`. -/
def groupBlocksIntoChunks (target maxSize : Nat) (blocks : List ContentBlock) : List Chunk :=
  let st := blocks.foldl (groupStep target maxSize) ⟨[], [], 0, []⟩
  (flushChunk st).chunks

/-- The overlap decoration of one chunk from its predecessor
(`addSemanticOverlap` loop body for `i > 0`). -/
def overlayChunk (overlap : Nat) (prev c : Chunk) : Chunk :=
  let base : Chunk :=
    { content := c.content, index := c.index, metadata := copyMetadata c.metadata }
  if 0 < overlap then
    let prevWords := fields prev.content
    if prevWords.isEmpty then base
    else
      let overlapCount := if prevWords.length < overlap then prevWords.length else overlap
      let overlapWords := prevWords.drop (prevWords.length - overlapCount)
      let overlapText := List.intercalate [' '] overlapWords
      if "[Section:".toList.isPrefixOf overlapText then base
      else
        { content := "[...] ".toList ++ overlapText ++ "\n\n".toList ++ base.content
          index := base.index
          metadata := mapSet (mapSet base.metadata "has_overlap" "true")
            "overlap_words" (intToString overlapCount) }
  else base

/-- `addSemanticOverlap`: prepend the last overlap words of the previous
chunk (unless that text is only a section marker). -/
def addSemanticOverlap (overlap : Nat) (chunks : List Chunk) : List Chunk :=
  if chunks.length ≤ 1 then chunks
  else
    match chunks with
    | [] => []
    | c0 :: rest =>
      ({ content := c0.content, index := c0.index, metadata := copyMetadata c0.metadata }
          : Chunk) ::
        (chunks.zip rest).map (fun p => overlayChunk overlap p.1 p.2)

/-- `chunkSemantic`: markdown-aware chunking (parse, group, overlap,
renumber). -/
def chunkSemantic (cfg : ChunkerConfig) (content : Str) : List Chunk :=
  let blocks := parseIntoBlocks content
  let chunks := groupBlocksIntoChunks cfg.targetSize.toNat cfg.maxSize.toNat blocks
  let chunks := if 0 < cfg.overlap.toNat then addSemanticOverlap cfg.overlap.toNat chunks
    else chunks
  chunks.mapIdx (fun i c => { c with index := i })

/-- The `Chunk` method: trim, dispatch on the configured strategy (unknown
methods fall back to semantic).  The receiver is always built by
`NewChunker`, so the config is normalised here. -/
def chunk (config : ChunkerConfig) (content : Str) : List Chunk :=
  let cfg := newChunker config
  let content := trim content
  if content.isEmpty then []
  else if cfg.method = "fixed" then chunkFixed cfg content
  else if cfg.method = "sentence" then chunkSentence cfg content
  else chunkSemantic cfg content

/-! ### Well-shapedness of the semantic chunker -/

/-- A string containing at least one non-space character. -/
def HasNonspace (s : Str) : Prop := ∃ c ∈ s, goIsSpace c = false

theorem hasNonspace_of_trim_ne_nil {s : Str} (h : trim s ≠ []) : HasNonspace s :=
  exists_nospace_of_trim_ne_nil h

theorem trim_ne_nil_of_hasNonspace {s : Str} (h : HasNonspace s) : trim s ≠ [] := by
  intro hcontra
  obtain ⟨c, hc, hns⟩ := h
  rw [(trim_eq_nil_iff s).mp hcontra c hc] at hns
  simp at hns

/-- Every code-block text recorded by `extractFences` starts with a
backtick and so contains a non-space character. -/
theorem extractFences_vals :
    ∀ (fuel i : Nat) (s : Str), ∀ p ∈ (extractFences fuel i s).2, HasNonspace p.2 := by
  intro fuel
  induction fuel with
  | zero =>
    intro i s p hp
    match s with
    | [] => simp [extractFences] at hp
    | c :: rest => simp [extractFences] at hp
  | succ fuel ih =>
    intro i s p hp
    match s with
    | [] => simp [extractFences] at hp
    | c :: rest =>
      rw [extractFences] at hp
      rcases hm : matchFenceAt (c :: rest) with _ | ⟨m, after⟩
      · rw [hm] at hp
        dsimp only at hp
        exact ih i rest p hp
      · rw [hm] at hp
        dsimp only at hp
        rcases List.mem_cons.mp hp with h1 | h1
        · subst h1
          show HasNonspace m
          unfold matchFenceAt at hm
          split at hm
          · rename_i b1 b2 b3 rest2
            split at hm
            · rename_i hb
              dsimp only at hm
              split at hm
              · rename_i body
                split at hm
                · rename_i mm hfc
                  injection hm with hm1
                  injection hm1 with hm2 hm3
                  refine ⟨backtick, ?_, by decide⟩
                  rw [← hm2, hb.1]
                  simp
                · simp at hm
              · simp at hm
            · simp at hm
          · simp at hm
        · exact ih (i + 1) after p h1

theorem assocLookup_isSome_mem {m : List (Str × Str)} {k : Str}
    (h : (assocLookup m k).isSome) : ∃ q ∈ m, assocLookup m k = some q.2 := by
  unfold assocLookup at h ⊢
  rcases hf : m.find? (fun p => p.1 == k) with _ | q
  · rw [hf] at h
    simp at h
  · exact ⟨q, List.mem_of_find?_eq_some hf, by rw [hf]; rfl⟩

/-- All blocks produced by `classifyFold` have non-space content. -/
theorem classifyFold_nonspace (codeMap : List (Str × Str))
    (hmap : ∀ p ∈ codeMap, HasNonspace p.2) :
    ∀ (paras : List Str) (curH : Str) (curL : Nat),
      ∀ b ∈ classifyFold codeMap paras curH curL, HasNonspace b.content := by
  intro paras
  induction paras with
  | nil =>
    intro curH curL b hb
    simp [classifyFold] at hb
  | cons para0 rest ih =>
    intro curH curL b hb
    rw [classifyFold] at hb
    by_cases hemp : (trim para0).isEmpty
    · rw [if_pos hemp] at hb
      exact ih curH curL b hb
    · rw [if_neg hemp] at hb
      have htr : trim para0 ≠ [] := by simpa [List.isEmpty_iff] using hemp
      have htrn : HasNonspace (trim para0) := by
        obtain ⟨c, hc, hns⟩ := trim_has_nospace htr
        exact ⟨c, hc, hns⟩
      by_cases hph : isPlaceholderPara (trim para0) ∧ (assocLookup codeMap (trim para0)).isSome
      · rw [if_pos hph] at hb
        rcases List.mem_cons.mp hb with h1 | h1
        · subst h1
          show HasNonspace ((assocLookup codeMap (trim para0)).getD [])
          obtain ⟨q, hqm, hq⟩ := assocLookup_isSome_mem hph.2
          rw [hq, Option.getD_some]
          exact hmap q hqm
        · exact ih curH curL b h1
      · rw [if_neg hph] at hb
        rcases hh : findHeaderLine (trim para0) with _ | ⟨lvl, htext⟩
        · rw [hh] at hb
          dsimp only at hb
          by_cases htab : isTablePara (trim para0)
          · rw [if_pos htab] at hb
            rcases List.mem_cons.mp hb with h1 | h1
            · subst h1
              exact htrn
            · exact ih curH curL b h1
          · rw [if_neg htab] at hb
            by_cases hlst : isListBlock (trim para0)
            · rw [if_pos hlst] at hb
              rcases List.mem_cons.mp hb with h1 | h1
              · subst h1
                exact htrn
              · exact ih curH curL b h1
            · rw [if_neg hlst] at hb
              rcases List.mem_cons.mp hb with h1 | h1
              · subst h1
                exact htrn
              · exact ih curH curL b h1
        · rw [hh] at hb
          dsimp only at hb
          rcases List.mem_cons.mp hb with h1 | h1
          · subst h1
            exact htrn
          · exact ih htext lvl b h1

theorem parseIntoBlocks_nonspace (content : Str) :
    ∀ b ∈ parseIntoBlocks content, HasNonspace b.content := by
  unfold parseIntoBlocks
  apply classifyFold_nonspace
  exact extractFences_vals content.length 0 content

theorem mapGet_overwrite_ne {k k' v : String} (h : k ≠ k') (m : List (String × String)) :
    mapGet (m.map (fun p => if p.1 == k' then (k', v) else p)) k = mapGet m k := by
  induction m with
  | nil => rfl
  | cons p rest ih =>
    unfold mapGet at ih ⊢
    simp only [List.map_cons]
    by_cases hp : (p.1 == k') = true
    · rw [if_pos hp]
      have hp1 : p.1 = k' := by simpa using hp
      have h1 : ¬ ((((k', v)) : String × String).1 == k) = true := by
        intro hc
        exact h (show k = k' from (show k' = k by simpa using hc).symm)
      have h2 : ¬ (p.1 == k) = true := by
        intro hc
        exact h (by rw [← show p.1 = k by simpa using hc, hp1])
      rw [@List.find?_cons_of_neg (String × String) (fun q => q.1 == k) (k', v) _ h1,
        @List.find?_cons_of_neg (String × String) (fun q => q.1 == k) p _ h2]
      exact ih
    · rw [if_neg hp]
      by_cases hpk : (p.1 == k) = true
      · rw [@List.find?_cons_of_pos (String × String) (fun q => q.1 == k) p _ hpk,
          @List.find?_cons_of_pos (String × String) (fun q => q.1 == k) p _ hpk]
      · rw [@List.find?_cons_of_neg (String × String) (fun q => q.1 == k) p _ hpk,
          @List.find?_cons_of_neg (String × String) (fun q => q.1 == k) p _ hpk]
        exact ih

/-- Setting one key does not change the value read at another key. -/
theorem mapGet_mapSet_ne (m : List (String × String)) {k k' : String} (v : String)
    (h : k ≠ k') : mapGet (mapSet m k' v) k = mapGet m k := by
  unfold mapSet
  split
  · exact mapGet_overwrite_ne h m
  · unfold mapGet
    rw [List.find?_append]
    have h1 : ([(k', v)].find? (fun p => p.1 == k)) = none := by
      simp only [List.find?_cons, List.find?_nil]
      rw [Bool.eq_false_iff.mpr (show ¬((k', v).1 == k) = true by
        simp only [beq_iff_eq]
        intro hcontra
        exact h hcontra.symm)]
    rw [h1]
    cases m.find? (fun p => p.1 == k) <;> rfl

/-- Every accumulated block content appears among the flush content
parts. -/
theorem buildParts_mem (first : ContentBlock) :
    ∀ (blocks : List ContentBlock) (flag : Bool),
      ∀ b ∈ blocks, b.content ∈ buildParts first blocks flag := by
  intro blocks
  induction blocks with
  | nil =>
    intro flag b hb
    simp at hb
  | cons x rest ih =>
    intro flag b hb
    rw [buildParts]
    rcases List.mem_cons.mp hb with h1 | h1
    · subst h1
      split
      · split
        · simp
        · simp
      · simp
    · split
      · split
        · simp only [List.mem_cons]
          exact Or.inr (Or.inr (ih true b h1))
        · simp only [List.mem_cons]
          exact Or.inr (ih false b h1)
      · simp only [List.mem_cons]
        exact Or.inr (ih flag b h1)

/-- Membership propagates into a separator join. -/
theorem mem_intercalate {sep : Str} {parts : List Str} {p : Str} (hp : p ∈ parts)
    {c : Char} (hc : c ∈ p) : c ∈ List.intercalate sep parts := by
  induction parts with
  | nil => simp at hp
  | cons x rest ih =>
    cases rest with
    | nil =>
      rw [List.mem_singleton.mp hp] at hc
      simpa [List.intercalate] using hc
    | cons y ys =>
      have hstep : List.intercalate sep (x :: y :: ys)
          = x ++ sep ++ List.intercalate sep (y :: ys) := by
        simp [List.intercalate, List.intersperse]
      rw [hstep]
      rcases List.mem_cons.mp hp with h1 | h1
      · subst h1
        simp [hc]
      · simp only [List.mem_append]
        exact Or.inr (ih h1)

/-- `flushChunk` keeps the chunk-shape invariant and empties the block
accumulator. -/
theorem flushChunk_shape {st : GroupState}
    (hch : ∀ c ∈ st.chunks, ChunkShape "semantic" c)
    (hcb : ∀ b ∈ st.curBlocks, HasNonspace b.content) :
    (∀ c ∈ (flushChunk st).chunks, ChunkShape "semantic" c) ∧
      (∀ b ∈ (flushChunk st).curBlocks, HasNonspace b.content) := by
  unfold flushChunk
  split
  · exact ⟨hch, hcb⟩
  · rename_i hne
    constructor
    · intro c hc
      rcases List.mem_append.mp hc with h1 | h1
      · exact hch c h1
      · rw [List.mem_singleton.mp h1]
        constructor
        · -- non-empty content: the first block has a non-space character
          show trim (List.intercalate "\n\n".toList
            (buildParts (st.curBlocks.headD ⟨"paragraph", [], [], 0⟩) st.curBlocks false)) ≠ []
          have hne2 : st.curBlocks ≠ [] := by simpa [List.isEmpty_iff] using hne
          match hcb0 : st.curBlocks, hne2 with
          | b0 :: bs, _ =>
            have hb0 : HasNonspace b0.content := hcb b0 (by rw [hcb0]; simp)
            obtain ⟨ch, hchm, hchns⟩ := hb0
            apply trim_ne_nil_of_hasNonspace
            refine ⟨ch, ?_, hchns⟩
            apply mem_intercalate _ hchm
            have := buildParts_mem ((b0 :: bs).headD ⟨"paragraph", [], [], 0⟩)
              (b0 :: bs) false b0 (by simp)
            exact this
        · -- the method key survives the conditional mapSet additions
          show mapGet _ "method" = some "semantic"
          have hbase : mapGet [("method", "semantic"),
              ("word_count", intToString (fields (List.intercalate "\n\n".toList
                (buildParts (st.curBlocks.headD ⟨"paragraph", [], [], 0⟩)
                  st.curBlocks false))).length)] "method" = some "semantic" := rfl
          split
          · split
            · split
              · rw [mapGet_mapSet_ne _ _ (by decide), mapGet_mapSet_ne _ _ (by decide),
                  mapGet_mapSet_ne _ _ (by decide), hbase]
              · rw [mapGet_mapSet_ne _ _ (by decide), mapGet_mapSet_ne _ _ (by decide), hbase]
            · split
              · rw [mapGet_mapSet_ne _ _ (by decide), mapGet_mapSet_ne _ _ (by decide), hbase]
              · rw [mapGet_mapSet_ne _ _ (by decide), hbase]
          · split
            · split
              · rw [mapGet_mapSet_ne _ _ (by decide), mapGet_mapSet_ne _ _ (by decide), hbase]
              · rw [mapGet_mapSet_ne _ _ (by decide), hbase]
            · split
              · rw [mapGet_mapSet_ne _ _ (by decide), hbase]
              · exact hbase
    · intro b hb
      simp at hb

/-- Shape invariant for `splitLargeBlock`: every chunk of the sentence-wise
split of an over-long block is well shaped. -/
theorem mkLargeChunk_shape {header : Str} {sentences : List Str} {cw idx : Nat}
    (hne : sentences ≠ []) (hw : ∀ s ∈ sentences, fields s ≠ []) :
    ChunkShape "semantic" (mkLargeChunk header sentences cw idx) := by
  constructor
  · show trim (if header ≠ [] then
        sectionMark header ++ "\n\n".toList ++ List.intercalate [' '] sentences
      else List.intercalate [' '] sentences) ≠ []
    split
    · apply trim_ne_nil_of_hasNonspace
      refine ⟨'[', by simp [sectionMark], by decide⟩
    · apply trim_ne_nil_of_hasNonspace
      match sentences, hne with
      | s :: rest, _ =>
        have h1 : fields s ≠ [] := hw s (by simp)
        obtain ⟨c, hc, hns⟩ : ∃ c ∈ s, goIsSpace c = false := by
          by_contra hall
          push_neg at hall
          exact h1 (fields_all_space (fun c hcm => by simpa using hall c hcm))
        exact ⟨c, mem_intercalate (by simp) hc, hns⟩
  · rfl

theorem splitLargeBlock_shape (target : Nat) (block : ContentBlock) :
    ∀ c ∈ splitLargeBlock target block, ChunkShape "semantic" c := by
  unfold splitLargeBlock
  dsimp only
  have hsent := splitSentences_words block.content
  -- invariant over the fold
  suffices h : ∀ (sentences : List Str) (st : List Chunk × List Str × Nat),
      (∀ s ∈ sentences, fields s ≠ []) →
      (∀ c ∈ st.1, ChunkShape "semantic" c) → (∀ s ∈ st.2.1, fields s ≠ []) →
      st.2.2 = (st.2.1.map (fun s => (fields s).length)).sum →
      let fin := sentences.foldl (splitLargeStep target block.header) st
      (∀ c ∈ fin.1, ChunkShape "semantic" c) ∧ (∀ s ∈ fin.2.1, fields s ≠ []) ∧
        fin.2.2 = (fin.2.1.map (fun s => (fields s).length)).sum by
    intro c hc
    have h2 := h (splitSentences block.content) ([], [], 0) hsent
      (by intro c hc2; simp at hc2) (by intro s hs; simp at hs) (by simp)
    set fin := (splitSentences block.content).foldl (splitLargeStep target block.header)
      ([], [], 0) with hfin
    by_cases hemp : fin.2.1.isEmpty
    · rw [if_pos hemp] at hc
      exact h2.1 c hc
    · rw [if_neg hemp] at hc
      rcases List.mem_append.mp hc with h3 | h3
      · exact h2.1 c h3
      · rw [List.mem_singleton.mp h3]
        exact mkLargeChunk_shape (by simpa [List.isEmpty_iff] using hemp) h2.2.1
  intro sentences
  induction sentences with
  | nil =>
    intro st _ h1 h2 h3
    exact ⟨h1, h2, h3⟩
  | cons s rest ih =>
    intro st hsw h1 h2 h3
    rw [List.foldl_cons]
    have hs : fields s ≠ [] := hsw s (by simp)
    apply ih _ (fun t htm => hsw t (by simp [htm]))
    all_goals
      unfold splitLargeStep
      dsimp only
    · -- chunk shapes after the step
      split
      · rename_i hcond
        intro c hc
        rcases List.mem_append.mp hc with h4 | h4
        · exact h1 c h4
        · rw [List.mem_singleton.mp h4]
          have hne : st.2.1 ≠ [] := by
            intro hnil
            rw [hnil] at h3
            simp at h3
            omega
          exact mkLargeChunk_shape hne h2
      · exact h1
    · -- pending sentences still carry words
      intro t ht
      split at ht
      · dsimp only at ht
        rcases List.mem_append.mp ht with h4 | h4
        · simp at h4
        · rw [List.mem_singleton.mp h4]
          exact hs
      · rcases List.mem_append.mp ht with h4 | h4
        · exact h2 t h4
        · rw [List.mem_singleton.mp h4]
          exact hs
    · -- word count stays consistent
      split
      · simp
      · simp only [List.map_append, List.sum_append, ← h3]
        simp

/-- `groupStep` preserves the shape invariant. -/
theorem groupStep_inv (target maxSize : Nat) {st : GroupState} {block : ContentBlock}
    (hb : HasNonspace block.content)
    (h1 : ∀ c ∈ st.chunks, ChunkShape "semantic" c)
    (h2 : ∀ b ∈ st.curBlocks, HasNonspace b.content) :
    (∀ c ∈ (groupStep target maxSize st block).chunks, ChunkShape "semantic" c) ∧
      (∀ b ∈ (groupStep target maxSize st block).curBlocks, HasNonspace b.content) := by
  unfold groupStep
  dsimp only
  set st1 := if block.blockType = "header" then { st with curHeader := block.header } else st
    with hst1
  have h1a : ∀ c ∈ st1.chunks, ChunkShape "semantic" c := by
    rw [hst1]
    split <;> exact h1
  have h2a : ∀ b ∈ st1.curBlocks, HasNonspace b.content := by
    rw [hst1]
    split <;> exact h2
  have hf := flushChunk_shape h1a h2a
  split
  · split
    · -- over-long atomic block: flush, then flush it alone
      apply flushChunk_shape
      · exact hf.1
      · intro b hbm
        rcases List.mem_append.mp hbm with h3 | h3
        · exact hf.2 b h3
        · rw [List.mem_singleton.mp h3]
          exact hb
    · -- over-long non-atomic block: sentence-wise split
      refine ⟨?_, hf.2⟩
      intro c hc
      rcases List.mem_append.mp hc with h3 | h3
      · exact hf.1 c h3
      · exact splitLargeBlock_shape target block c h3
  · split
    · split
      · -- atomic block kept with its context, then flushed
        refine flushChunk_shape ?_ ?_
        · exact h1a
        · intro b hbm
          rcases List.mem_append.mp hbm with h3 | h3
          · exact h2a b h3
          · rw [List.mem_singleton.mp h3]
            exact hb
      · -- flush, then start a fresh accumulation with the block
        refine ⟨hf.1, ?_⟩
        intro b hbm
        rcases List.mem_append.mp hbm with h3 | h3
        · exact hf.2 b h3
        · rw [List.mem_singleton.mp h3]
          exact hb
    · -- accumulate the block
      refine ⟨h1a, ?_⟩
      intro b hbm
      rcases List.mem_append.mp hbm with h3 | h3
      · exact h2a b h3
      · rw [List.mem_singleton.mp h3]
        exact hb

theorem groupBlocksIntoChunks_shape (target maxSize : Nat) (blocks : List ContentBlock)
    (hb : ∀ b ∈ blocks, HasNonspace b.content) :
    ∀ c ∈ groupBlocksIntoChunks target maxSize blocks, ChunkShape "semantic" c := by
  unfold groupBlocksIntoChunks
  dsimp only
  suffices h : ∀ (bs : List ContentBlock) (st : GroupState),
      (∀ b ∈ bs, HasNonspace b.content) →
      (∀ c ∈ st.chunks, ChunkShape "semantic" c) →
      (∀ b ∈ st.curBlocks, HasNonspace b.content) →
      (∀ c ∈ (bs.foldl (groupStep target maxSize) st).chunks, ChunkShape "semantic" c) ∧
        (∀ b ∈ (bs.foldl (groupStep target maxSize) st).curBlocks, HasNonspace b.content) by
    have h2 := h blocks ⟨[], [], 0, []⟩ hb (by intro c hc; simp at hc) (by intro b hbm; simp at hbm)
    exact (flushChunk_shape h2.1 h2.2).1
  intro bs
  induction bs with
  | nil =>
    intro st _ h1 h2
    exact ⟨h1, h2⟩
  | cons b rest ih =>
    intro st hbs h1 h2
    rw [List.foldl_cons]
    have hstep := groupStep_inv target maxSize (hbs b (by simp)) h1 h2
    exact ih _ (fun t ht => hbs t (by simp [ht])) hstep.1 hstep.2

/-- The overlap decoration keeps chunks well shaped. -/
theorem overlayChunk_shape (overlap : Nat) (prev : Chunk) {c : Chunk}
    (h : ChunkShape "semantic" c) : ChunkShape "semantic" (overlayChunk overlap prev c) := by
  unfold overlayChunk
  dsimp only
  split
  · split
    · exact h
    · split <;> split
      · exact h
      · exact ⟨by simp, by
          rw [mapGet_mapSet_ne _ _ (by decide), mapGet_mapSet_ne _ _ (by decide)]
          exact h.2⟩
      · exact h
      · exact ⟨by simp, by
          rw [mapGet_mapSet_ne _ _ (by decide), mapGet_mapSet_ne _ _ (by decide)]
          exact h.2⟩
  · exact h

theorem addSemanticOverlap_shape (overlap : Nat) (chunks : List Chunk)
    (h : ∀ c ∈ chunks, ChunkShape "semantic" c) :
    ∀ c ∈ addSemanticOverlap overlap chunks, ChunkShape "semantic" c := by
  unfold addSemanticOverlap
  split
  · exact h
  · match chunks, h with
    | c0 :: rest, h =>
      intro c hc
      rcases List.mem_cons.mp hc with h1 | h1
      · rw [h1]
        exact h c0 (by simp)
      · obtain ⟨p, hp, hpc⟩ := List.mem_map.mp h1
        rw [← hpc]
        exact overlayChunk_shape overlap p.1 (h p.2 (List.mem_cons_of_mem c0 (List.of_mem_zip hp).2))

/-- The final renumbering makes indices dense and keeps content and
metadata. -/
theorem chunkSemantic_spec (cfg : ChunkerConfig) (content : Str) :
    (∀ c ∈ chunkSemantic cfg content, ChunkShape "semantic" c) ∧
      denseFrom 0 (chunkSemantic cfg content) := by
  unfold chunkSemantic
  dsimp only
  set base := if 0 < cfg.overlap.toNat then
      addSemanticOverlap cfg.overlap.toNat
        (groupBlocksIntoChunks cfg.targetSize.toNat cfg.maxSize.toNat (parseIntoBlocks content))
    else groupBlocksIntoChunks cfg.targetSize.toNat cfg.maxSize.toNat (parseIntoBlocks content)
    with hbase
  have hsh : ∀ c ∈ base, ChunkShape "semantic" c := by
    rw [hbase]
    split
    · exact addSemanticOverlap_shape _ _
        (groupBlocksIntoChunks_shape _ _ _ (parseIntoBlocks_nonspace content))
    · exact groupBlocksIntoChunks_shape _ _ _ (parseIntoBlocks_nonspace content)
  constructor
  · intro c hc
    obtain ⟨i, hi, hic⟩ := List.mem_mapIdx.mp hc
    have := hsh base[i] (List.getElem_mem hi)
    rw [← hic]
    exact ⟨this.1, this.2⟩
  · intro i hi
    have hlen : i < base.length := by simpa using hi
    have : (base.mapIdx (fun i c => { c with index := i })).get ⟨i, hi⟩
        = { base[i] with index := i } := by
      rw [List.get_eq_getElem, List.getElem_mapIdx]
    rw [this]
    simp

/-- Combined specification of `chunkFixed`. -/
theorem chunkFixed_spec (cfg : ChunkerConfig) (content : Str)
    (ht : 1 ≤ cfg.targetSize.toNat) :
    (fields content).Sublist (chunkTokens (chunkFixed cfg content)) ∧
      (∀ c ∈ chunkFixed cfg content, ChunkShape "fixed" c) ∧
      denseFrom 0 (chunkFixed cfg content) := by
  unfold chunkFixed
  dsimp only
  by_cases hemp : (fields content).isEmpty
  · rw [if_pos hemp]
    have h0 : fields content = [] := List.isEmpty_iff.mp hemp
    refine ⟨by simp [h0, chunkTokens], ?_, ?_⟩
    · intro c hc
      simp at hc
    · intro i hi
      simp at hi
  · rw [if_neg hemp]
    have htok := windowLoop_tokens cfg.targetSize.toNat cfg.overlap.toNat mkFixedChunk ht
      (fun cw n => rfl) [] (fields content) (goodWords_fields content)
    have hsh := windowLoop_shape cfg.targetSize.toNat cfg.overlap.toNat mkFixedChunk
      "fixed" 0 ht
      (fun cw n hne hnw => ⟨intercalate_space_ne_nil hne hnw, rfl⟩)
      (fun cw n => by simp [mkFixedChunk]) [] (fields content) (goodWords_fields content)
      (by intro c hc; simp at hc) (by intro i hi; simp at hi)
    exact ⟨by simpa [chunkTokens] using htok, hsh.1, hsh.2⟩

theorem newChunker_target_toNat_pos (config : ChunkerConfig) :
    1 ≤ (newChunker config).targetSize.toNat := by
  have := newChunker_targetSize_pos config
  omega

/-- C6 of the chunker interface: for every configuration and input, each
returned chunk has non-empty content and a `method` metadata key, and the
`index` fields form the dense sequence `0..N-1`. -/
theorem chunk_wellformed (config : ChunkerConfig) (content : Str) :
    (∀ c ∈ chunk config content,
        c.content ≠ [] ∧ (mapGet c.metadata "method").isSome) ∧
      ∀ i (h : i < (chunk config content).length),
        ((chunk config content).get ⟨i, h⟩).index = i := by
  unfold chunk
  dsimp only
  by_cases hemp : (trim content).isEmpty
  · rw [if_pos hemp]
    exact ⟨by intro c hc; simp at hc, by intro i hi; simp at hi⟩
  · rw [if_neg hemp]
    have ht := newChunker_target_toNat_pos config
    by_cases hf : (newChunker config).method = "fixed"
    · rw [if_pos hf]
      obtain ⟨_, hsh, hd⟩ := chunkFixed_spec (newChunker config) (trim content) ht
      refine ⟨?_, ?_⟩
      · intro c hc
        obtain ⟨h1, h2⟩ := hsh c hc
        exact ⟨h1, by rw [h2]; rfl⟩
      · intro i hi
        have := hd i hi
        omega
    · rw [if_neg hf]
      by_cases hs : (newChunker config).method = "sentence"
      · rw [if_pos hs]
        obtain ⟨_, hsh, hd⟩ := chunkSentence_spec (newChunker config) (trim content) ht
        refine ⟨?_, ?_⟩
        · intro c hc
          obtain ⟨h1, h2⟩ := hsh c hc
          exact ⟨h1, by rw [h2]; rfl⟩
        · intro i hi
          have := hd i hi
          omega
      · rw [if_neg hs]
        obtain ⟨hsh, hd⟩ := chunkSemantic_spec (newChunker config) (trim content)
        refine ⟨?_, ?_⟩
        · intro c hc
          obtain ⟨h1, h2⟩ := hsh c hc
          exact ⟨h1, by rw [h2]; rfl⟩
        · intro i hi
          have := hd i hi
          omega

/-- C1, amended part: under the fixed and sentence strategies every
non-whitespace token of the input survives, in order, into the concatenated
token streams of the chunk contents. -/
theorem chunk_tokens_fixed_sentence (config : ChunkerConfig) (content : Str)
    (h : (newChunker config).method = "fixed" ∨ (newChunker config).method = "sentence") :
    (fields content).Sublist (chunkTokens (chunk config content)) := by
  unfold chunk
  dsimp only
  have heq : fields content = fields (trim content) := (fields_trim content).symm
  by_cases hemp : (trim content).isEmpty
  · rw [if_pos hemp]
    have h0 : trim content = [] := List.isEmpty_iff.mp hemp
    rw [heq, h0]
    simp [chunkTokens]
  · rw [if_neg hemp]
    have ht := newChunker_target_toNat_pos config
    rcases h with hf | hs
    · rw [if_pos hf, heq]
      exact (chunkFixed_spec (newChunker config) (trim content) ht).1
    · by_cases hf : (newChunker config).method = "fixed"
      · rw [hf] at hs
        simp at hs
      · rw [if_neg hf, if_pos hs, heq]
        exact (chunkSentence_spec (newChunker config) (trim content) ht).1

/-- The default chunker configuration (`DefaultChunkerConfig`). -/
def defaultChunkerConfig : ChunkerConfig :=
  { method := "semantic", targetSize := 512, maxSize := 1024, overlap := 50 }

/-- A markdown text whose fenced code block is not separated from the
preceding text by a blank line. -/
def c1CexInput : Str := "x ```go\ny\n```".toList

/-! ## Hashing and document ingestion (internal/service/document.go) -/

/-- SHA-256 digests, modelled as a formal constructor on the input bytes
(collisions are assumed not to occur). -/
inductive Sha where
  | sha256 (input : Str)
deriving DecidableEq, Repr, BEq

/-- `hashContent`: SHA-256 of the content. -/
def hashContent (content : Str) : Sha := .sha256 content

/-- `ragv1.DocumentStatus`. -/
inductive DocumentStatus where
  | unspecified
  | pending
  | processing
  | ready
  | failed
deriving DecidableEq, Repr

/-- `convertStatus`: string status to proto status. -/
def convertStatus (status : String) : DocumentStatus :=
  if status = "PENDING" then .pending
  else if status = "PROCESSING" then .processing
  else if status = "READY" then .ready
  else if status = "FAILED" then .failed
  else .unspecified

/-- `repository.Document` (identifiers modelled as naturals). -/
structure Document where
  id : Nat
  tenantId : Nat
  source : Str
  title : Str
  contentHash : Sha
  chunkCount : Nat
  status : String
  errorMessage : Str
deriving DecidableEq, Repr, BEq

/-- A persisted chunk row (`document_chunks`). -/
structure ChunkRow where
  documentId : Nat
  chunkIndex : Nat
  content : Str
deriving DecidableEq, Repr

/-- A persisted vector point in the per-tenant collection. -/
structure VectorRow where
  chunkId : Nat
  documentId : Nat
  tenantId : Nat
  content : Str
deriving DecidableEq, Repr

/-- The metadata store and vector store, modelled as an in-memory relation
set (the Postgres/Qdrant clients are external I/O). -/
structure RepoState where
  tenants : List Nat
  docs : List Document
  chunkRows : List ChunkRow
  vectorRows : List VectorRow
  nextId : Nat
deriving DecidableEq, Repr

/-- `DocumentRepo.GetByHash`: lookup by `(tenant_id, content_hash)`. -/
def getByHash (st : RepoState) (tenantId : Nat) (h : Sha) : Option Document :=
  st.docs.find? (fun d => d.tenantId == tenantId && d.contentHash == h)

/-- The synchronous part of `IngestDocument`: validate, hash
`source + "\n" + content`, return the existing document on a dedupe hit,
otherwise insert a `PROCESSING` row (background processing then starts on a
detached task and is not part of this step). -/
def ingestDocument (st : RepoState) (tenantId : Nat) (content source title : Str) :
    Except String (Nat × DocumentStatus) × RepoState :=
  if content = [] then (.error "content is required", st)
  else if ¬ st.tenants.contains tenantId then (.error "tenant not found", st)
  else
    let contentHash := hashContent (source ++ '\n' :: content)
    match getByHash st tenantId contentHash with
    | some existingDoc => (.ok (existingDoc.id, convertStatus existingDoc.status), st)
    | none =>
      let title := if title = [] then "Untitled Document".toList else title
      let source := if source = [] then "direct-upload".toList else source
      let doc : Document :=
        { id := st.nextId, tenantId := tenantId, source := source, title := title
          contentHash := contentHash, chunkCount := 0, status := "PROCESSING"
          errorMessage := [] }
      (.ok (doc.id, DocumentStatus.processing),
        { st with docs := st.docs ++ [doc], nextId := st.nextId + 1 })

/-! ## Tenant configuration and its validators -/

/-- `repository.TenantConfig` (scores in ℚ in place of float32). -/
structure TenantConfig where
  embeddingModel : String
  llmModel : String
  chunker : ChunkerConfig
  topK : Int
  minScore : ℚ
  systemPrompt : String
  rerankerEnabled : Bool
deriving DecidableEq, Repr

/-- The `validMethods` set shared by both validators. -/
def validMethods (m : String) : Bool :=
  m == "fixed" || m == "semantic" || m == "sentence"

/-- `TenantService.validateTenantConfig` (tenant admin API), with the Go
error values abbreviated to their message heads. -/
def validateTenantConfig (config : TenantConfig) : Except String Unit :=
  if config.embeddingModel = "" then .error "embedding_model is required"
  else if config.llmModel = "" then .error "llm_model is required"
  else if config.chunker.method ≠ "" ∧ ¬ validMethods config.chunker.method then
    .error "invalid chunker method"
  else if config.chunker.targetSize < 0 then .error "chunker target_size cannot be negative"
  else if config.chunker.maxSize < 0 then .error "chunker max_size cannot be negative"
  else if 0 < config.chunker.targetSize ∧ 0 < config.chunker.maxSize ∧
      config.chunker.maxSize < config.chunker.targetSize then
    .error "chunker target_size cannot be greater than max_size"
  else if config.chunker.overlap < 0 then .error "chunker overlap cannot be negative"
  else if config.topK < 0 then .error "top_k cannot be negative"
  else if config.minScore < 0 ∨ 1 < config.minScore then
    .error "min_score must be between 0 and 1"
  else .ok ()

/-- `chunker.ValidateChunkerConfig` (the ingestion-side validator). -/
def ValidateChunkerConfig (config : ChunkerConfig) : Except String Unit :=
  if config.method ≠ "" ∧ ¬ validMethods config.method then
    .error "invalid chunking method"
  else if config.targetSize < 0 then .error "target_size cannot be negative"
  else if config.maxSize < 0 then .error "max_size cannot be negative"
  else if 0 < config.targetSize ∧ 0 < config.maxSize ∧ config.maxSize < config.targetSize then
    .error "target_size cannot be greater than max_size"
  else if config.overlap < 0 then .error "overlap cannot be negative"
  else if 0 < config.overlap ∧ 0 < config.targetSize ∧ config.targetSize ≤ config.overlap then
    .error "overlap must be less than target_size"
  else .ok ()

/-! ## Query options (internal/service/rag.go) -/

/-- An apostrophe, kept out of string literals. -/
def apos : String := (Char.ofNat 39).toString

/-- The `defaultSystemPrompt` constant. -/
def defaultSystemPrompt : String :=
  "You are a concise knowledge assistant. Answer questions using ONLY the provided documents.\n\nIMPORTANT: Be brief and direct. Most answers should be 2-5 sentences.\n\nRules:\n- Give the direct answer first, then brief supporting details only if needed\n- Do NOT include step-by-step instructions unless specifically asked\n- Do NOT include code examples unless specifically asked for code\n- If the documents don" ++ apos ++ "t cover the topic, say \"The documents don" ++ apos ++ "t cover this.\"\n- Never invent information not in the provided documents"

/-- `ragv1.QueryOptions` (request-level overrides). -/
structure QueryOptions where
  topK : Int
  minScore : ℚ
  systemPrompt : String
  temperature : ℚ
  maxTokens : Int
deriving DecidableEq, Repr

/-- The resolved `queryOptions` struct. -/
structure queryOptions where
  topK : Int
  minScore : ℚ
  systemPrompt : String
  temperature : ℚ
  maxTokens : Int
  model : String
deriving DecidableEq, Repr

/-- The "apply defaults if tenant config has zero values" block of
`buildQueryOptions`. -/
def applyTenantDefaults (options : queryOptions) : queryOptions :=
  let options := if options.topK ≤ 0 then { options with topK := 4 } else options
  let options := if options.minScore ≤ 0 then { options with minScore := 1 / 2 } else options
  if options.systemPrompt = "" then { options with systemPrompt := defaultSystemPrompt }
  else options

/-- The "override with request options if provided" block of
`buildQueryOptions`. -/
def applyRequestOverrides (options : queryOptions) (o : QueryOptions) : queryOptions :=
  let options := if 0 < o.topK then { options with topK := o.topK } else options
  let options := if 0 < o.minScore then { options with minScore := o.minScore } else options
  let options :=
    if o.systemPrompt ≠ "" then { options with systemPrompt := o.systemPrompt } else options
  let options :=
    if 0 < o.temperature then { options with temperature := o.temperature } else options
  if 0 < o.maxTokens then { options with maxTokens := o.maxTokens } else options

/-- `RAGService.buildQueryOptions`: tenant config, then hard defaults for
non-positive or empty fields, then strictly positive (or non-empty)
request overrides. -/
def buildQueryOptions (tenant : TenantConfig) (opts : Option QueryOptions) : queryOptions :=
  let options : queryOptions :=
    { topK := tenant.topK, minScore := tenant.minScore
      systemPrompt := tenant.systemPrompt, temperature := 3 / 10
      maxTokens := 2048, model := tenant.llmModel }
  let options := applyTenantDefaults options
  match opts with
  | none => options
  | some o => applyRequestOverrides options o

/-! ## Deduplication (tokenize, jaccardSimilarity, deduplicateResults) -/

/-- `vectorstore.SearchResult`. -/
structure SearchResult where
  id : String
  documentId : String
  content : Str
  score : ℚ
  metadata : List (String × String)
deriving DecidableEq, Repr

/-- The punctuation cutset passed to `strings.Trim` by `tokenize`:
period, comma, bang, question mark, semicolon, colon, double quote,
apostrophe, parentheses, square brackets, curly braces, equals, angle
brackets. -/
def punctCutset : List Char :=
  ['.', ',', '!', '?', ';', ':', '"', Char.ofNat 39, '(', ')', '[', ']',
   Char.ofNat 123, Char.ofNat 125, '=', '<', '>']

/-- `strings.Trim word cutset`: strip leading and trailing cutset
characters. -/
def trimPunct (word : Str) : Str :=
  ((word.dropWhile (fun c => punctCutset.contains c)).reverse.dropWhile
    (fun c => punctCutset.contains c)).reverse

/-- `tokenize`: lowercase, split on white space, trim punctuation, keep
tokens of length greater than 2, collect into a set. -/
def tokenize (content : Str) : Finset Str :=
  (((fields (goToLower content)).map trimPunct).filter (fun w => 2 < w.length)).toFinset

/-- `jaccardSimilarity` on word sets (float64 arithmetic carried out in
ℚ, where it is exact for these small integer ratios). -/
def jaccardSimilarity (set1 set2 : Finset Str) : ℚ :=
  if set1.card = 0 ∧ set2.card = 0 then 1
  else if set1.card = 0 ∨ set2.card = 0 then 0
  else
    let intersection := (set1 ∩ set2).card
    let union := set1.card + set2.card - intersection
    (intersection : ℚ) / (union : ℚ)

/-- One comparison of the inner loop of `deduplicateResults`: clear
`keep[j]` when result `j` is still kept and its word set is at least
`threshold`-similar to word set `i`. -/
def dedupCompare (wordSets : List (Finset Str)) (threshold : ℚ) (i : Nat)
    (k : List Bool) (j : Nat) : List Bool :=
  if k.getD j false then
    if threshold ≤ jaccardSimilarity (wordSets.getD i ∅) (wordSets.getD j ∅) then
      k.set j false
    else k
  else k

/-- The inner loop `for j := i+1; j < n; j++` of `deduplicateResults`. -/
def dedupInner (wordSets : List (Finset Str)) (threshold : ℚ) (i : Nat)
    (keep : List Bool) : List Bool :=
  (List.range' (i + 1) (wordSets.length - (i + 1))).foldl
    (dedupCompare wordSets threshold i) keep

/-- One outer-loop step of `deduplicateResults`: results already marked
dropped are skipped. -/
def dedupOuter (wordSets : List (Finset Str)) (threshold : ℚ)
    (keep : List Bool) (i : Nat) : List Bool :=
  if keep.getD i false then dedupInner wordSets threshold i keep else keep

/-- The keep-flag computation of `deduplicateResults`. -/
def dedupFlags (wordSets : List (Finset Str)) (threshold : ℚ) : List Bool :=
  (List.range wordSets.length).foldl (dedupOuter wordSets threshold)
    (List.replicate wordSets.length true)

/-- The final loop of `deduplicateResults`: walk the keep flags and the
results in parallel, appending the results whose flag is still set. -/
def keepFilter : List Bool → List SearchResult → List SearchResult
  | b :: bs, r :: rs => if b then r :: keepFilter bs rs else keepFilter bs rs
  | _, _ => []

/-- `deduplicateResults`. -/
def deduplicateResults (results : List SearchResult) (threshold : ℚ) : List SearchResult :=
  if results.length ≤ 1 then results
  else
    let wordSets := results.map (fun r => tokenize r.content)
    keepFilter (dedupFlags wordSets threshold) results

/-! ## Reranking (reranker.LLMReranker) -/

/-- `reranker.ScoredResult`. -/
structure ScoredResult where
  result : SearchResult
  rerankerScore : ℚ
deriving DecidableEq, Repr

/-- The LLM-dependent outcome inside `LLMReranker.Rerank`: the generation
call fails, the response fails to parse, or it parses into a list of
`(doc_index, score)` entries. -/
inductive RerankOutcome where
  | genError
  | parseError
  | parsed (entries : List (Int × ℚ))
deriving DecidableEq, Repr

/-- The score-array construction of `parseRerankResponse`: every slot
defaults to `0.5`; in-bounds entries are clamped to `[0,1]` and stored at
their `doc_index`. -/
def buildScores (entries : List (Int × ℚ)) (numResults : Nat) : List ℚ :=
  entries.foldl
    (fun scores e =>
      if 0 ≤ e.1 ∧ e.1 < (numResults : Int) then
        scores.set e.1.toNat (if e.2 < 0 then 0 else if 1 < e.2 then 1 else e.2)
      else scores)
    (List.replicate numResults (1 / 2 : ℚ))

/-- Descending insertion by reranker score. `sort.Slice` with
`less i j = score i > score j` is modelled as insertion sort: the verified
properties do not depend on which descending-sorted permutation the
unstable `sort.Slice` produces. -/
def insertDesc (x : ScoredResult) : List ScoredResult → List ScoredResult
  | [] => [x]
  | y :: ys =>
    if y.rerankerScore < x.rerankerScore then x :: y :: ys else y :: insertDesc x ys

/-- The sort step of `LLMReranker.Rerank`. -/
def sortByScoreDesc : List ScoredResult → List ScoredResult
  | [] => []
  | x :: xs => insertDesc x (sortByScoreDesc xs)

/-- `fallbackScoring`: original order, original vector scores, truncated
to `topK`. -/
def fallbackScoring (results : List SearchResult) (topK : Int) : List ScoredResult :=
  let scoredResults := results.map (fun r => ScoredResult.mk r r.score)
  if topK < (scoredResults.length : Int) then scoredResults.take topK.toNat else scoredResults

/-- `LLMReranker.Rerank`, with the LLM interaction abstracted by
`RerankOutcome`. -/
def llmRerank (results : List SearchResult) (topK : Int) (outcome : RerankOutcome) :
    Except Unit (List ScoredResult) :=
  if results.length = 0 then .ok []
  else
    let topK := if (results.length : Int) ≤ topK then (results.length : Int) else topK
    match outcome with
    | .genError => .error ()
    | .parseError => .ok (fallbackScoring results topK)
    | .parsed entries =>
      let scores := buildScores entries results.length
      let scoredResults :=
        results.enum.map (fun p => ScoredResult.mk p.2 (scores.getD p.1 (1 / 2)))
      let scoredResults := sortByScoreDesc scoredResults
      .ok (if topK < (scoredResults.length : Int) then scoredResults.take topK.toNat
        else scoredResults)

/-- Step 2.6 of `Query`/`QueryStream`: rerank when a reranker is attached,
reranking is enabled for the tenant, and candidates remain; on error or an
empty rerank result, continue with the current candidates; on success
replace each score by its reranker score. -/
def rerankStep (attached enabled : Bool) (outcome : RerankOutcome) (topK : Int)
    (searchResults : List SearchResult) : List SearchResult :=
  if attached ∧ enabled ∧ 0 < searchResults.length then
    match llmRerank searchResults topK outcome with
    | .ok reranked =>
      if 0 < reranked.length then
        reranked.map (fun r => { r.result with score := r.rerankerScore })
      else searchResults
    | .error _ => searchResults
  else searchResults

/-! ## The shared retrieval pipeline and the Query/QueryStream outputs -/

/-- Steps 2.5-2.7 of `Query`/`QueryStream`: deduplicate at threshold 0.7,
rerank, truncate to `topK`. -/
def retrievalPipeline (options : queryOptions) (attached enabled : Bool)
    (outcome : RerankOutcome) (searchResults : List SearchResult) : List SearchResult :=
  let searchResults := deduplicateResults searchResults (7 / 10)
  let searchResults := rerankStep attached enabled outcome options.topK searchResults
  if options.topK < (searchResults.length : Int) then searchResults.take options.topK.toNat
  else searchResults

/-- `ragv1.RetrievedChunk` (the fields the claims inspect). -/
structure RetrievedChunk where
  documentId : String
  chunkId : String
  content : Str
  score : ℚ
deriving DecidableEq, Repr

/-- The per-result source conversion in `Query` and `QueryStream`. -/
def toRetrievedChunk (result : SearchResult) : RetrievedChunk :=
  { documentId := result.documentId, chunkId := result.id
    content := result.content, score := result.score }

/-- The `sources` list of a `Query` response, as a function of the tenant
config, the request options, the reranker wiring, the rerank outcome and
the raw vector-search results. -/
def querySources (tenant : TenantConfig) (opts : Option QueryOptions)
    (attached : Bool) (outcome : RerankOutcome)
    (searchResults : List SearchResult) : List RetrievedChunk :=
  let options := buildQueryOptions tenant opts
  (retrievalPipeline options attached tenant.rerankerEnabled outcome searchResults).map
    toRetrievedChunk

/-! ## QueryStream event sequence -/

/-- `llm.StreamChunk` (the `Error` field modelled as a flag). -/
structure StreamChunk where
  token : Str
  done : Bool
  error : Bool
deriving DecidableEq, Repr

/-- The events sent on a `QueryStream` response stream. -/
inductive StreamEvent where
  | source (chunk : RetrievedChunk)
  | token (t : Str)
  | error
  | metadata (chunksRetrieved : Nat)
deriving DecidableEq, Repr

/-- The token loop of `QueryStream`: an error chunk ends the stream with a
single error event and no metadata; non-empty tokens are forwarded; empty
tokens are skipped; when the channel closes, the final metadata event is
sent. -/
def streamLoop (chunksRetrieved : Nat) : List StreamChunk → List StreamEvent
  | [] => [.metadata chunksRetrieved]
  | c :: rest =>
    if c.error then [.error]
    else if c.token ≠ [] then .token c.token :: streamLoop chunksRetrieved rest
    else streamLoop chunksRetrieved rest

/-- The full event sequence of a `QueryStream` call that reaches the LLM
stream: one source event per retrieved chunk, then the token loop over the
chunks received from the LLM channel. -/
def queryStreamEvents (tenant : TenantConfig) (opts : Option QueryOptions)
    (attached : Bool) (outcome : RerankOutcome)
    (searchResults : List SearchResult) (chunks : List StreamChunk) : List StreamEvent :=
  let options := buildQueryOptions tenant opts
  let finalResults :=
    retrievalPipeline options attached tenant.rerankerEnabled outcome searchResults
  finalResults.map (fun r => .source (toRetrievedChunk r)) ++
    streamLoop finalResults.length chunks

/-- Recognizer for `token* metadata`. -/
def tokensThenMetadata : List StreamEvent → Bool
  | [StreamEvent.metadata _] => true
  | StreamEvent.token _ :: rest => tokensThenMetadata rest
  | _ => false

/-- Recognizer for `token+ metadata`. -/
def tokensPlusThenMetadata : List StreamEvent → Bool
  | StreamEvent.token _ :: rest => tokensThenMetadata rest
  | _ => false

/-- Recognizer for `token* error`. -/
def tokensThenError : List StreamEvent → Bool
  | [StreamEvent.error] => true
  | StreamEvent.token _ :: rest => tokensThenError rest
  | _ => false

/-- Strip the leading `source*` segment. -/
def dropSources : List StreamEvent → List StreamEvent
  | StreamEvent.source _ :: rest => dropSources rest
  | evs => evs

/-- The grammar stated by the specification:
`source* token+ metadata | source* token* error`. -/
def specStreamGrammar (evs : List StreamEvent) : Bool :=
  tokensPlusThenMetadata (dropSources evs) || tokensThenError (dropSources evs)

/-- The grammar actually produced:
`source* token* metadata | source* token* error`. -/
def actualStreamGrammar (evs : List StreamEvent) : Bool :=
  tokensThenMetadata (dropSources evs) || tokensThenError (dropSources evs)

/-! ## C1: the semantic-strategy counterexample and the witness -/

/-- C1, counterexample: under the default (semantic) configuration, the
code-fence placeholder of a fence that is not blank-line-separated from the
preceding text is never substituted back, so the fence body tokens `go` and
`y` are lost and the claimed token preservation fails. -/
theorem chunk_semantic_drops_fence_tokens :
    ¬ (fields c1CexInput).Sublist (chunkTokens (chunk defaultChunkerConfig c1CexInput)) := by
  decide

/-- A fixed-strategy configuration used by the C1 witness. -/
def w1Config : ChunkerConfig :=
  { method := "fixed", targetSize := 2, maxSize := 4, overlap := 1 }

/-- C1, witness: the amended token-preservation theorem applied to a
concrete fixed-strategy configuration and input. -/
theorem chunk_tokens_fixed_sentence_witness :
    (fields "alpha beta gamma delta".toList).Sublist
      (chunkTokens (chunk w1Config "alpha beta gamma delta".toList)) :=
  chunk_tokens_fixed_sentence w1Config "alpha beta gamma delta".toList (Or.inl (by decide))

/-! ## C5: idempotence of direct re-ingestion -/

/-- C5: re-ingesting an identical `(source, content)` pair under the same
tenant returns the existing document's id and current status and leaves
the repository state (documents, chunk rows, vector rows) unchanged. -/
theorem ingestDocument_idempotent :
    ∀ (st : RepoState) (tenantId : Nat) (content source title : Str) (d : Document),
      content ≠ [] → st.tenants.contains tenantId = true →
      getByHash st tenantId (hashContent (source ++ '\n' :: content)) = some d →
      ingestDocument st tenantId content source title =
        (.ok (d.id, convertStatus d.status), st) := by
  intro st tenantId content source title d hc htn hhash
  unfold ingestDocument
  rw [if_neg hc, if_neg (not_not_intro htn)]
  simp only [hhash]

def w5St0 : RepoState :=
  { tenants := [1], docs := [], chunkRows := [], vectorRows := [], nextId := 0 }

/-- The state after a first successful ingestion into `w5St0`. -/
def w5St1 : RepoState :=
  (ingestDocument w5St0 1 "hello world".toList "s".toList "t".toList).2

/-- The document that first ingestion created. -/
def w5Doc : Document :=
  { id := 0, tenantId := 1, source := "s".toList, title := "t".toList
    contentHash := hashContent ("s".toList ++ '\n' :: "hello world".toList)
    chunkCount := 0, status := "PROCESSING", errorMessage := [] }

/-- C5, witness: the idempotence theorem applied to the state produced by a
first concrete ingestion. -/
theorem ingestDocument_idempotent_witness :
    ingestDocument w5St1 1 "hello world".toList "s".toList "t".toList =
      (.ok (w5Doc.id, convertStatus w5Doc.status), w5St1) :=
  ingestDocument_idempotent w5St1 1 "hello world".toList "s".toList "t".toList w5Doc
    (by decide) (by decide) (by decide)

/-! ## C4: the two chunker validators -/

/-- C4, amended: the ingestion-side `ValidateChunkerConfig` accepts every
in-bounds configuration and rejects each single mutation, including
`overlap ≥ target` with both positive; the tenant-side
`validateTenantConfig` checks the same bounds **except** the
overlap-below-target constraint. -/
theorem chunker_validation_bounds :
    (∀ config : ChunkerConfig,
        (config.method = "" ∨ validMethods config.method = true) →
        0 ≤ config.targetSize → config.targetSize ≤ config.maxSize →
        0 ≤ config.overlap → config.overlap < config.targetSize →
        ValidateChunkerConfig config = .ok ()) ∧
      (∀ config : ChunkerConfig,
        (0 < config.targetSize ∧ 0 < config.maxSize ∧
            config.maxSize < config.targetSize) ∨
          config.targetSize < 0 ∨ config.maxSize < 0 ∨ config.overlap < 0 ∨
          (0 < config.overlap ∧ 0 < config.targetSize ∧
            config.targetSize ≤ config.overlap) →
        ValidateChunkerConfig config ≠ .ok ()) ∧
      (∀ tc : TenantConfig,
        tc.embeddingModel ≠ "" → tc.llmModel ≠ "" →
        (tc.chunker.method = "" ∨ validMethods tc.chunker.method = true) →
        0 ≤ tc.chunker.targetSize → tc.chunker.targetSize ≤ tc.chunker.maxSize →
        0 ≤ tc.chunker.overlap → tc.chunker.overlap < tc.chunker.targetSize →
        0 ≤ tc.topK → 0 ≤ tc.minScore → tc.minScore ≤ 1 →
        validateTenantConfig tc = .ok ()) ∧
      (∀ tc : TenantConfig,
        (0 < tc.chunker.targetSize ∧ 0 < tc.chunker.maxSize ∧
            tc.chunker.maxSize < tc.chunker.targetSize) ∨
          tc.chunker.targetSize < 0 ∨ tc.chunker.maxSize < 0 ∨ tc.chunker.overlap < 0 →
        validateTenantConfig tc ≠ .ok ()) := by
  refine ⟨?_, ?_, ?_, ?_⟩
  · intro config hm ht hmx ho hov
    have hm' : ¬(config.method ≠ "" ∧ ¬ validMethods config.method = true) := by
      rcases hm with he | hv
      · simp [he]
      · simp [hv]
    unfold ValidateChunkerConfig
    split_ifs with h1 h2 h3 h4 h5
    all_goals first | rfl | omega | exact hm' (by assumption)
  · intro config h hok
    unfold ValidateChunkerConfig at hok
    split_ifs at hok with h1 h2 h3 h4 h5 h6
    rcases h with h | h | h | h | h <;> omega
  · intro tc he hl hm ht hmx ho hov htk hms0 hms1
    have hm' : ¬(tc.chunker.method ≠ "" ∧ ¬ validMethods tc.chunker.method = true) := by
      rcases hm with hx | hv
      · simp [hx]
      · simp [hv]
    have hms : ¬(tc.minScore < 0 ∨ 1 < tc.minScore) := by
      simp only [not_or, not_lt]
      exact ⟨hms0, hms1⟩
    unfold validateTenantConfig
    split_ifs with h1 h2 h3 h4 h5 h6 h7 h8 h9
    all_goals first
      | rfl
      | omega
      | exact he (by assumption)
      | exact hl (by assumption)
      | exact hm' (by assumption)
      | exact hms (by assumption)
  · intro tc h hok
    unfold validateTenantConfig at hok
    split_ifs at hok with h1 h2 h3 h4 h5 h6 h7 h8 h9
    rcases h with h | h | h | h <;> omega

def w4Ok : ChunkerConfig :=
  { method := "sentence", targetSize := 10, maxSize := 20, overlap := 5 }

def w4Bad : ChunkerConfig :=
  { method := "sentence", targetSize := 30, maxSize := 20, overlap := 5 }

def w4Tc : TenantConfig :=
  { embeddingModel := "nomic-embed-text", llmModel := "llama3", chunker := w4Ok
    topK := 4, minScore := 0, systemPrompt := "", rerankerEnabled := false }

def w4TcBad : TenantConfig :=
  { embeddingModel := "nomic-embed-text", llmModel := "llama3", chunker := w4Bad
    topK := 4, minScore := 0, systemPrompt := "", rerankerEnabled := false }

/-- C4, witness: the validation theorem applied to concrete accepted and
rejected configurations. -/
theorem chunker_validation_bounds_witness :
    ValidateChunkerConfig w4Ok = .ok () ∧
      ValidateChunkerConfig w4Bad ≠ .ok () ∧
      validateTenantConfig w4Tc = .ok () ∧
      validateTenantConfig w4TcBad ≠ .ok () :=
  ⟨chunker_validation_bounds.1 w4Ok (Or.inr (by decide)) (by decide) (by decide)
      (by decide) (by decide),
    chunker_validation_bounds.2.1 w4Bad (Or.inl (by decide)),
    chunker_validation_bounds.2.2.1 w4Tc (by decide) (by decide) (Or.inr (by decide))
      (by decide) (by decide) (by decide) (by decide) (by decide) (by decide) (by decide),
    chunker_validation_bounds.2.2.2 w4TcBad (Or.inl (by decide))⟩

/-- A tenant configuration whose chunker has `overlap = target_size = 10`. -/
def c4TenantCex : TenantConfig :=
  { embeddingModel := "nomic-embed-text", llmModel := "llama3"
    chunker := { method := "fixed", targetSize := 10, maxSize := 20, overlap := 10 }
    topK := 4, minScore := 0, systemPrompt := "", rerankerEnabled := false }

/-- C4, counterexample: the tenant-config validator accepts a chunker
configuration with `overlap = target_size` (both positive), the very
mutation the claim says makes the validator reject — only the
ingestion-side validator rejects it. -/
theorem validateTenantConfig_accepts_overlap_eq_target :
    0 < c4TenantCex.chunker.overlap ∧
      c4TenantCex.chunker.targetSize ≤ c4TenantCex.chunker.overlap ∧
      validateTenantConfig c4TenantCex = .ok () ∧
      ValidateChunkerConfig c4TenantCex.chunker =
        .error "overlap must be less than target_size" :=
  ⟨by decide, by decide, rfl, rfl⟩

/-! ## C7: the QueryStream event grammar -/

theorem dropSources_map_source (l : List SearchResult) (evs : List StreamEvent) :
    dropSources (l.map (fun r => StreamEvent.source (toRetrievedChunk r)) ++ evs) =
      dropSources evs := by
  induction l with
  | nil => rfl
  | cons a t ih => simpa [dropSources] using ih

theorem streamLoop_not_source (m : Nat) (chunks : List StreamChunk) :
    dropSources (streamLoop m chunks) = streamLoop m chunks := by
  induction chunks with
  | nil => rfl
  | cons c rest ih =>
    simp only [streamLoop]
    split
    · rfl
    · split
      · rfl
      · exact ih

theorem streamLoop_grammar (m : Nat) (chunks : List StreamChunk) :
    (tokensThenMetadata (streamLoop m chunks) ||
      tokensThenError (streamLoop m chunks)) = true := by
  induction chunks with
  | nil => rfl
  | cons c rest ih =>
    simp only [streamLoop]
    split
    · rfl
    · split
      · simpa [tokensThenMetadata, tokensThenError] using ih
      · exact ih

/-- C7, amended: every event sequence of a `QueryStream` call that reaches
the LLM stream matches `source* token* metadata | source* token* error` —
sources first, metadata last on success, error terminal on failure; the
claimed `token+` is weakened to `token*` because a response stream with no
non-empty token still ends with a metadata event. -/
theorem queryStream_grammar (tenant : TenantConfig) (opts : Option QueryOptions)
    (attached : Bool) (outcome : RerankOutcome)
    (searchResults : List SearchResult) (chunks : List StreamChunk) :
    actualStreamGrammar
      (queryStreamEvents tenant opts attached outcome searchResults chunks) = true := by
  simp only [queryStreamEvents, actualStreamGrammar]
  rw [dropSources_map_source, streamLoop_not_source]
  exact streamLoop_grammar _ _

def c7Tenant : TenantConfig :=
  { embeddingModel := "e", llmModel := "l", chunker := defaultChunkerConfig
    topK := 4, minScore := 0, systemPrompt := "", rerankerEnabled := false }

def c7Result : SearchResult :=
  { id := "c1", documentId := "d1", content := "alpha".toList, score := 1, metadata := [] }

/-- C7, counterexample: an LLM stream that closes after a single empty
token chunk produces `source metadata` — rejected by the claimed grammar
`source* token+ metadata | source* token* error`, accepted by the actual
one. -/
theorem queryStream_zero_token_stream :
    specStreamGrammar
        (queryStreamEvents c7Tenant none false .genError [c7Result]
          [{ token := [], done := true, error := false }]) = false ∧
      actualStreamGrammar
        (queryStreamEvents c7Tenant none false .genError [c7Result]
          [{ token := [], done := true, error := false }]) = true := by
  decide

/-! ## C9: reranking replaces scores and sorts, errors are non-fatal -/

theorem insertDesc_length (x : ScoredResult) (l : List ScoredResult) :
    (insertDesc x l).length = l.length + 1 := by
  induction l with
  | nil => rfl
  | cons y ys ih =>
    unfold insertDesc
    split
    · rfl
    · simp [ih]

theorem sortByScoreDesc_length (l : List ScoredResult) :
    (sortByScoreDesc l).length = l.length := by
  induction l with
  | nil => rfl
  | cons x xs ih => simp [sortByScoreDesc, insertDesc_length, ih]

theorem insertDesc_mem (x z : ScoredResult) (l : List ScoredResult)
    (hz : z ∈ insertDesc x l) : z = x ∨ z ∈ l := by
  induction l with
  | nil => simpa [insertDesc] using hz
  | cons y ys ih =>
    unfold insertDesc at hz
    split at hz
    · rcases List.mem_cons.mp hz with h | h
      · exact Or.inl h
      · exact Or.inr h
    · rcases List.mem_cons.mp hz with h | h
      · exact Or.inr (h ▸ List.mem_cons_self _ _)
      · rcases ih h with h1 | h1
        · exact Or.inl h1
        · exact Or.inr (List.mem_cons_of_mem _ h1)

theorem insertDesc_sorted (x : ScoredResult) (l : List ScoredResult)
    (h : l.Pairwise (fun a b => b.rerankerScore ≤ a.rerankerScore)) :
    (insertDesc x l).Pairwise (fun a b => b.rerankerScore ≤ a.rerankerScore) := by
  induction l with
  | nil => simp [insertDesc]
  | cons y ys ih =>
    unfold insertDesc
    split
    · refine List.Pairwise.cons ?_ h
      intro z hz
      rcases List.mem_cons.mp hz with h1 | h1
      · subst h1
        exact le_of_lt (by assumption)
      · exact le_trans (List.rel_of_pairwise_cons h h1) (le_of_lt (by assumption))
    · refine List.Pairwise.cons ?_ (ih (List.Pairwise.of_cons h))
      intro z hz
      rcases insertDesc_mem x z ys hz with h1 | h1
      · subst h1
        exact not_lt.mp (by assumption)
      · exact List.rel_of_pairwise_cons h h1

theorem sortByScoreDesc_sorted (l : List ScoredResult) :
    (sortByScoreDesc l).Pairwise (fun a b => b.rerankerScore ≤ a.rerankerScore) := by
  induction l with
  | nil => exact List.Pairwise.nil
  | cons x xs ih => exact insertDesc_sorted x _ ih

/-- A successful parse outcome makes `Rerank` return a non-empty list
sorted descending by reranker score (given a positive `topK`). -/
theorem llmRerank_parsed (results : List SearchResult) (topK : Int)
    (entries : List (Int × ℚ)) (hne : results ≠ []) (htk : 0 < topK) :
    ∃ out, llmRerank results topK (.parsed entries) = .ok out ∧ out ≠ [] ∧
      out.Pairwise (fun a b => b.rerankerScore ≤ a.rerankerScore) := by
  have hlen : ¬ results.length = 0 := fun h => hne (List.eq_nil_of_length_eq_zero h)
  have hpos : 0 < results.length := Nat.pos_of_ne_zero hlen
  have hsl : (sortByScoreDesc
      (results.enum.map
        (fun p => ScoredResult.mk p.2
          ((buildScores entries results.length).getD p.1 (1 / 2))))).length =
      results.length := by
    rw [sortByScoreDesc_length, List.length_map, List.enum_length]
  unfold llmRerank
  rw [if_neg hlen]
  refine ⟨_, rfl, ?_, ?_⟩
  · split <;> split <;> intro habs
    all_goals
      first
        | (obtain h | h := List.take_eq_nil_iff.mp habs <;>
            first
              | (rw [Int.toNat_eq_zero] at h; omega)
              | (rw [h] at hsl; simp at hsl; omega))
        | (rw [habs] at hsl; simp at hsl; omega)
  · split <;> split
    all_goals
      first
        | exact List.Pairwise.sublist (List.take_sublist _ _) (sortByScoreDesc_sorted _)
        | exact sortByScoreDesc_sorted _

/-- C9: when a reranker is attached and enabled, a successful rerank
replaces every candidate's score with its reranker score and the result is
sorted descending by that score; a reranker error leaves the original
candidates and scores untouched. -/
theorem rerank_replaces_and_sorts :
    ∀ (results : List SearchResult) (topK : Int) (entries : List (Int × ℚ))
      (out : List ScoredResult),
      0 < topK → results ≠ [] →
      llmRerank results topK (.parsed entries) = .ok out →
      (∀ (attached enabled : Bool) (outcome : RerankOutcome),
          llmRerank results topK outcome = .error () →
          rerankStep attached enabled outcome topK results = results) ∧
        out ≠ [] ∧
        rerankStep true true (.parsed entries) topK results =
          out.map (fun r => { r.result with score := r.rerankerScore }) ∧
        (rerankStep true true (.parsed entries) topK results).Pairwise
          (fun a b => b.score ≤ a.score) := by
  intro results topK entries out htk hne hok
  obtain ⟨out2, hok2, hne2, hsorted2⟩ := llmRerank_parsed results topK entries hne htk
  have hout : out2 = out := Except.ok.inj (hok2.symm.trans hok)
  subst hout
  have hcond : (true = true) ∧ (true = true) ∧ 0 < results.length :=
    ⟨rfl, rfl, List.length_pos.mpr hne⟩
  have hmap : rerankStep true true (.parsed entries) topK results =
      out2.map (fun r => { r.result with score := r.rerankerScore }) := by
    unfold rerankStep
    rw [if_pos hcond, hok2]
    simp [List.length_pos, hne2]
  refine ⟨?_, hne2, hmap, ?_⟩
  · intro attached enabled outcome herr
    unfold rerankStep
    split
    · rw [herr]
    · rfl
  · rw [hmap]
    exact List.pairwise_map.mpr hsorted2

def w9r : SearchResult :=
  { id := "r1", documentId := "d1", content := "alpha beta".toList, score := 1, metadata := [] }

def w9out : List ScoredResult := [ScoredResult.mk w9r 1]

/-- C9, witness: the rerank theorem at a singleton candidate list and a
parsed score entry. -/
theorem rerank_replaces_and_sorts_witness :
    (∀ (attached enabled : Bool) (outcome : RerankOutcome),
        llmRerank [w9r] 4 outcome = .error () →
        rerankStep attached enabled outcome 4 [w9r] = [w9r]) ∧
      w9out ≠ [] ∧
      rerankStep true true (.parsed [((0 : Int), (1 : ℚ))]) 4 [w9r] =
        w9out.map (fun r => { r.result with score := r.rerankerScore }) ∧
      (rerankStep true true (.parsed [((0 : Int), (1 : ℚ))]) 4 [w9r]).Pairwise
        (fun a b => b.score ≤ a.score) :=
  rerank_replaces_and_sorts [w9r] 4 [(0, 1)] w9out (by decide)
    (by decide) rfl

/-! ## C10: empty token sets are treated as identical -/

/-- C10: when two results both tokenize to the empty word set, their
Jaccard similarity is 1.0 and deduplication at threshold 0.7 keeps only
the earlier (higher-ranked) of the two. -/
theorem empty_token_sets_deduplicate :
    ∀ (r1 r2 : SearchResult),
      tokenize r1.content = ∅ → tokenize r2.content = ∅ →
      jaccardSimilarity (tokenize r1.content) (tokenize r2.content) = 1 ∧
        deduplicateResults [r1, r2] (7 / 10) = [r1] := by
  intro r1 r2 h1 h2
  have hf : dedupFlags [(∅ : Finset Str), ∅] (7 / 10) = [true, false] :=
    of_decide_eq_true (by with_unfolding_all rfl)
  constructor
  · rw [h1, h2]
    rfl
  · unfold deduplicateResults
    rw [if_neg (by simp)]
    simp only [List.map_cons, List.map_nil, h1, h2]
    rw [hf]
    rfl

def w10a : SearchResult :=
  { id := "a", documentId := "da", content := "?? !!".toList, score := 1, metadata := [] }

def w10b : SearchResult :=
  { id := "b", documentId := "db", content := "it is at 9 pm".toList, score := 0, metadata := [] }

/-- C10, witness: two entirely different raw contents — one punctuation,
one short words — both tokenize to the empty set, and the lower-ranked
result is dropped. -/
theorem empty_token_sets_deduplicate_witness :
    jaccardSimilarity (tokenize w10a.content) (tokenize w10b.content) = 1 ∧
      deduplicateResults [w10a, w10b] (7 / 10) = [w10a] :=
  empty_token_sets_deduplicate w10a w10b (by decide) (by decide)

/-! ## C3: top_k resolution, source count and the min_score bound -/

theorem keepFilter_subset :
    ∀ (bs : List Bool) (rs : List SearchResult), ∀ x ∈ keepFilter bs rs, x ∈ rs := by
  intro bs
  induction bs with
  | nil => intro rs x hx; simp [keepFilter] at hx
  | cons b bs ih =>
    intro rs x hx
    cases rs with
    | nil => simp [keepFilter] at hx
    | cons r rt =>
      cases b with
      | false =>
        simp only [keepFilter, Bool.false_eq_true, if_false] at hx
        exact List.mem_cons_of_mem _ (ih rt x hx)
      | true =>
        simp only [keepFilter, if_true] at hx
        rcases List.mem_cons.mp hx with h | h
        · exact h ▸ List.mem_cons_self _ _
        · exact List.mem_cons_of_mem _ (ih rt x h)

theorem deduplicateResults_subset (results : List SearchResult) (threshold : ℚ) :
    ∀ x ∈ deduplicateResults results threshold, x ∈ results := by
  unfold deduplicateResults
  split
  · exact fun x h => h
  · exact fun x hx => keepFilter_subset _ _ x hx

theorem applyTenantDefaults_topK (options : queryOptions) :
    (applyTenantDefaults options).topK =
      if options.topK ≤ 0 then 4 else options.topK := by
  unfold applyTenantDefaults
  dsimp only
  split_ifs <;> rfl

theorem applyTenantDefaults_minScore (options : queryOptions) :
    (applyTenantDefaults options).minScore =
      if options.minScore ≤ 0 then 1 / 2 else options.minScore := by
  unfold applyTenantDefaults
  dsimp only
  split_ifs <;> rfl

theorem applyRequestOverrides_topK (options : queryOptions) (o : QueryOptions) :
    (applyRequestOverrides options o).topK =
      if 0 < o.topK then o.topK else options.topK := by
  unfold applyRequestOverrides
  dsimp only
  split_ifs <;> rfl

theorem applyRequestOverrides_minScore (options : queryOptions) (o : QueryOptions) :
    (applyRequestOverrides options o).minScore =
      if 0 < o.minScore then o.minScore else options.minScore := by
  unfold applyRequestOverrides
  dsimp only
  split_ifs <;> rfl

theorem buildQueryOptions_topK (tenant : TenantConfig) (opts : Option QueryOptions) :
    (buildQueryOptions tenant opts).topK =
      match opts with
      | some o =>
        if 0 < o.topK then o.topK else if tenant.topK ≤ 0 then 4 else tenant.topK
      | none => if tenant.topK ≤ 0 then 4 else tenant.topK := by
  cases opts with
  | none => exact applyTenantDefaults_topK _
  | some o =>
    show (applyRequestOverrides _ o).topK = _
    rw [applyRequestOverrides_topK, applyTenantDefaults_topK]

theorem buildQueryOptions_topK_pos (tenant : TenantConfig) (opts : Option QueryOptions) :
    0 < (buildQueryOptions tenant opts).topK := by
  rw [buildQueryOptions_topK]
  cases opts with
  | none => dsimp only; split_ifs <;> omega
  | some o => dsimp only; split_ifs <;> omega

theorem retrievalPipeline_subset (options : queryOptions) (attached enabled : Bool)
    (outcome : RerankOutcome) (searchResults : List SearchResult)
    (hkeep : rerankStep attached enabled outcome options.topK
        (deduplicateResults searchResults (7 / 10)) =
      deduplicateResults searchResults (7 / 10)) :
    ∀ x ∈ retrievalPipeline options attached enabled outcome searchResults,
      x ∈ searchResults := by
  intro x hx
  unfold retrievalPipeline at hx
  dsimp only at hx
  rw [hkeep] at hx
  have hx2 : x ∈ deduplicateResults searchResults (7 / 10) := by
    revert hx
    split
    · exact fun hx => List.take_subset _ _ hx
    · exact fun hx => hx
  exact deduplicateResults_subset _ _ x hx2

theorem retrievalPipeline_length (options : queryOptions) (attached enabled : Bool)
    (outcome : RerankOutcome) (searchResults : List SearchResult)
    (htk : 0 ≤ options.topK) :
    ((retrievalPipeline options attached enabled outcome searchResults).length : Int) ≤
      options.topK := by
  unfold retrievalPipeline
  dsimp only
  split
  · simp only [List.length_take]
    omega
  · omega

/-- C3, amended: the resolved `top_k` is the strictly positive request
override, else the tenant value, else the hard default 4; the response
holds at most `top_k` sources; and *provided the rerank step leaves the
candidates unchanged* (reranker absent, disabled for the tenant, or
failing), every source's score is still bounded below by the resolved
`min_score` whenever the vector search respected it. A successful rerank
replaces the scores and the bound is lost (see the counterexample). -/
theorem query_topk_and_minscore :
    ∀ (tenant : TenantConfig) (opts : Option QueryOptions) (attached : Bool)
      (outcome : RerankOutcome) (searchResults : List SearchResult),
      ((buildQueryOptions tenant opts).topK =
        match opts with
        | some o =>
          if 0 < o.topK then o.topK else if tenant.topK ≤ 0 then 4 else tenant.topK
        | none => if tenant.topK ≤ 0 then 4 else tenant.topK) ∧
      ((querySources tenant opts attached outcome searchResults).length : Int) ≤
        (buildQueryOptions tenant opts).topK ∧
      ((attached = false ∨ tenant.rerankerEnabled = false ∨
          llmRerank (deduplicateResults searchResults (7 / 10))
            (buildQueryOptions tenant opts).topK outcome = .error ()) →
        (∀ r ∈ searchResults, (buildQueryOptions tenant opts).minScore ≤ r.score) →
        ∀ s ∈ querySources tenant opts attached outcome searchResults,
          (buildQueryOptions tenant opts).minScore ≤ s.score) := by
  intro tenant opts attached outcome searchResults
  refine ⟨?_, ?_, ?_⟩
  · exact buildQueryOptions_topK tenant opts
  · unfold querySources
    rw [List.length_map]
    exact retrievalPipeline_length _ _ _ _ _
      (le_of_lt (buildQueryOptions_topK_pos tenant opts))
  · intro hnorerank hscores s hs
    have hkeep : rerankStep attached tenant.rerankerEnabled outcome
        (buildQueryOptions tenant opts).topK
        (deduplicateResults searchResults (7 / 10)) =
        deduplicateResults searchResults (7 / 10) := by
      unfold rerankStep
      rcases hnorerank with h | h | h
      · rw [if_neg (by simp [h])]
      · rw [if_neg (by simp [h])]
      · split
        · rw [h]
        · rfl
    unfold querySources at hs
    rcases List.mem_map.mp hs with ⟨r, hr, hsr⟩
    have hrmem : r ∈ searchResults :=
      retrievalPipeline_subset _ _ _ _ _ hkeep r hr
    rw [← hsr]
    exact hscores r hrmem

def c3Tenant : TenantConfig :=
  { embeddingModel := "e", llmModel := "l", chunker := defaultChunkerConfig
    topK := 4, minScore := 1, systemPrompt := "", rerankerEnabled := true }

def c3Result : SearchResult :=
  { id := "c", documentId := "d", content := "alpha beta".toList, score := 1, metadata := [] }

/-- C3, counterexample: with reranking enabled, the vector search returns
one result with score 1 ≥ min_score = 1, but a successful rerank rewrites
the score to 0, and the response exposes a source whose score is below the
resolved min_score. -/
theorem query_rerank_breaks_minscore :
    (∀ r ∈ [c3Result], (buildQueryOptions c3Tenant none).minScore ≤ r.score) ∧
      ∃ s ∈ querySources c3Tenant none true (.parsed [(0, 0)]) [c3Result],
        s.score < (buildQueryOptions c3Tenant none).minScore := by
  decide

/-! ## C8: deduplication is idempotent -/

theorem getD_set_self_of_lt (l : List Bool) (j : Nat) (h : j < l.length) (a : Bool) :
    (l.set j a).getD j false = a := by
  rw [List.getD_eq_getElem?_getD, List.getElem?_set_self h]
  rfl

theorem getD_set_ne_bool (l : List Bool) (j x : Nat) (h : j ≠ x) (a : Bool) :
    (l.set j a).getD x false = l.getD x false := by
  rw [List.getD_eq_getElem?_getD, List.getElem?_set_ne h, ← List.getD_eq_getElem?_getD]

theorem getD_set_false_mono (l : List Bool) (j x : Nat)
    (h : (l.set j false).getD x false = true) : l.getD x false = true := by
  by_cases hxj : j = x
  · subst hxj
    by_cases hj : j < l.length
    · rw [getD_set_self_of_lt _ _ hj] at h
      exact Bool.noConfusion h
    · rwa [List.set_eq_of_length_le (le_of_not_lt hj)] at h
  · rwa [getD_set_ne_bool _ _ _ hxj] at h

theorem foldl_length_inv (step : List Bool → Nat → List Bool)
    (hstep : ∀ k a, (step k a).length = k.length) :
    ∀ (L : List Nat) (k : List Bool), (L.foldl step k).length = k.length := by
  intro L
  induction L with
  | nil => intro k; rfl
  | cons a t ih => intro k; rw [List.foldl_cons, ih, hstep]

theorem foldl_getD_mono (step : List Bool → Nat → List Bool)
    (hstep : ∀ k a x, (step k a).getD x false = true → k.getD x false = true) :
    ∀ (L : List Nat) (k : List Bool) (x : Nat),
      (L.foldl step k).getD x false = true → k.getD x false = true := by
  intro L
  induction L with
  | nil => intro k x h; exact h
  | cons a t ih =>
    intro k x h
    rw [List.foldl_cons] at h
    exact hstep _ _ _ (ih _ _ h)

theorem foldl_fix (step : List Bool → Nat → List Bool) :
    ∀ (L : List Nat), (∀ k a, a ∈ L → step k a = k) → ∀ k, L.foldl step k = k := by
  intro L
  induction L with
  | nil => intro _ k; rfl
  | cons a t ih =>
    intro h k
    rw [List.foldl_cons, h k a (List.mem_cons_self _ _)]
    exact ih (fun k a ha => h k a (List.mem_cons_of_mem _ ha)) k

theorem dedupCompare_length (sets : List (Finset Str)) (θ : ℚ) (i : Nat)
    (k : List Bool) (j : Nat) : (dedupCompare sets θ i k j).length = k.length := by
  unfold dedupCompare
  split_ifs <;> simp [List.length_set]

theorem dedupCompare_mono (sets : List (Finset Str)) (θ : ℚ) (i : Nat)
    (k : List Bool) (j x : Nat)
    (h : (dedupCompare sets θ i k j).getD x false = true) :
    k.getD x false = true := by
  unfold dedupCompare at h
  split_ifs at h
  · exact getD_set_false_mono _ _ _ h
  · exact h
  · exact h

theorem dedupInner_length (sets : List (Finset Str)) (θ : ℚ) (i : Nat)
    (keep : List Bool) : (dedupInner sets θ i keep).length = keep.length :=
  foldl_length_inv _ (dedupCompare_length sets θ i) _ _

theorem dedupInner_mono (sets : List (Finset Str)) (θ : ℚ) (i : Nat)
    (keep : List Bool) (x : Nat)
    (h : (dedupInner sets θ i keep).getD x false = true) :
    keep.getD x false = true :=
  foldl_getD_mono _ (dedupCompare_mono sets θ i) _ _ _ h

theorem dedupOuter_length (sets : List (Finset Str)) (θ : ℚ)
    (keep : List Bool) (i : Nat) : (dedupOuter sets θ keep i).length = keep.length := by
  unfold dedupOuter
  split
  · exact dedupInner_length _ _ _ _
  · rfl

theorem dedupOuter_mono (sets : List (Finset Str)) (θ : ℚ)
    (keep : List Bool) (i x : Nat)
    (h : (dedupOuter sets θ keep i).getD x false = true) :
    keep.getD x false = true := by
  unfold dedupOuter at h
  split at h
  · exact dedupInner_mono _ _ _ _ _ h
  · exact h

/-- Splitting `range' s k` at a member `m`. -/
theorem range'_decomp (s m k : Nat) (hsm : s ≤ m) (hmk : m < s + k) :
    List.range' s k =
      List.range' s (m - s) ++ m :: List.range' (m + 1) (k - (m - s) - 1) := by
  have h2 := List.range'_append s (m - s) (k - (m - s)) 1
  simp only [one_mul] at h2
  rw [Nat.add_sub_cancel' hsm] at h2
  have e : k - (m - s) + (m - s) = k := by omega
  rw [e] at h2
  have e2 : k - (m - s) = (k - (m - s) - 1) + 1 := by omega
  rw [e2, List.range'_succ] at h2
  exact h2.symm

/-- Splitting `range n` at a member `a`. -/
theorem range_decomp (a n : Nat) (h : a < n) :
    List.range n = List.range a ++ a :: List.range' (a + 1) (n - (a + 1)) := by
  rw [List.range_eq_range', List.range_eq_range',
    range'_decomp 0 a n (Nat.zero_le a) (by omega)]
  simp
  omega

/-- Two finally-kept results are strictly below the similarity threshold. -/
theorem dedupFlags_pairwise (sets : List (Finset Str)) (θ : ℚ) (i j : Nat)
    (hij : i < j) (hj : j < sets.length)
    (hi : (dedupFlags sets θ).getD i false = true)
    (hjt : (dedupFlags sets θ).getD j false = true) :
    jaccardSimilarity (sets.getD i ∅) (sets.getD j ∅) < θ := by
  by_contra hge
  push_neg at hge
  have hin : i < sets.length := lt_trans hij hj
  unfold dedupFlags at hi hjt
  rw [range_decomp i sets.length hin, List.foldl_append, List.foldl_cons] at hi hjt
  set A := List.foldl (dedupOuter sets θ) (List.replicate sets.length true)
    (List.range i) with hA
  have hAi : A.getD i false = true :=
    dedupOuter_mono _ _ _ _ _
      (foldl_getD_mono _ (dedupOuter_mono sets θ) _ _ _ hi)
  have hBj : (dedupOuter sets θ A i).getD j false = true :=
    foldl_getD_mono _ (dedupOuter_mono sets θ) _ _ _ hjt
  have hstepA : dedupOuter sets θ A i = dedupInner sets θ i A := by
    unfold dedupOuter
    rw [if_pos hAi]
  rw [hstepA] at hBj
  unfold dedupInner at hBj
  rw [range'_decomp (i + 1) j (sets.length - (i + 1)) (by omega) (by omega),
    List.foldl_append, List.foldl_cons] at hBj
  set C := List.foldl (dedupCompare sets θ i) A (List.range' (i + 1) (j - (i + 1)))
    with hC
  have hCj' : (dedupCompare sets θ i C j).getD j false = true :=
    foldl_getD_mono _ (dedupCompare_mono sets θ i) _ _ _ hBj
  have hCj : C.getD j false = true := dedupCompare_mono _ _ _ _ _ _ hCj'
  have hAlen : A.length = sets.length := by
    rw [hA, foldl_length_inv _ (dedupOuter_length sets θ), List.length_replicate]
  have hClen : C.length = sets.length := by
    rw [hC, foldl_length_inv _ (dedupCompare_length sets θ i), hAlen]
  have hfalse : (dedupCompare sets θ i C j).getD j false = false := by
    unfold dedupCompare
    rw [if_pos hCj, if_pos hge, getD_set_self_of_lt _ _ (by rw [hClen]; exact hj)]
  rw [hfalse] at hCj'
  exact Bool.noConfusion hCj'

theorem dedupInner_fix (sets : List (Finset Str)) (θ : ℚ) (i : Nat) (keep : List Bool)
    (h : ∀ j, i < j → j < sets.length →
      ¬ θ ≤ jaccardSimilarity (sets.getD i ∅) (sets.getD j ∅)) :
    dedupInner sets θ i keep = keep := by
  unfold dedupInner
  apply foldl_fix
  intro k j hj
  rw [List.mem_range'] at hj
  obtain ⟨m, hm, rfl⟩ := hj
  simp only [one_mul] at hm ⊢
  unfold dedupCompare
  split_ifs with h1 h2
  · exact absurd h2 (h _ (by omega) (by omega))
  · rfl
  · rfl

theorem dedupFlags_of_pairwise (sets : List (Finset Str)) (θ : ℚ)
    (h : ∀ i j, i < j → j < sets.length →
      jaccardSimilarity (sets.getD i ∅) (sets.getD j ∅) < θ) :
    dedupFlags sets θ = List.replicate sets.length true := by
  unfold dedupFlags
  apply foldl_fix
  intro k i _
  unfold dedupOuter
  split
  · exact dedupInner_fix sets θ i k (fun j hij hjn => not_le.mpr (h i j hij hjn))
  · rfl

theorem keepFilter_replicate (rs : List SearchResult) :
    keepFilter (List.replicate rs.length true) rs = rs := by
  induction rs with
  | nil => rfl
  | cons r rt ih => simp [keepFilter, List.replicate_succ, ih]

theorem keepFilter_mem :
    ∀ (bs : List Bool) (rs : List SearchResult) (x : SearchResult),
      x ∈ keepFilter bs rs →
      ∃ k, ∃ hk : k < rs.length, bs.getD k false = true ∧ x = rs.get ⟨k, hk⟩ := by
  intro bs
  induction bs with
  | nil => intro rs x hx; cases rs <;> simp [keepFilter] at hx
  | cons b bt ih =>
    intro rs x hx
    cases rs with
    | nil => simp [keepFilter] at hx
    | cons r rt =>
      cases b with
      | false =>
        simp only [keepFilter, Bool.false_eq_true, if_false] at hx
        obtain ⟨k, hk, hb, hxk⟩ := ih rt x hx
        exact ⟨k + 1, Nat.succ_lt_succ hk, hb, hxk⟩
      | true =>
        simp only [keepFilter, if_true] at hx
        rcases List.mem_cons.mp hx with h | h
        · exact ⟨0, Nat.succ_pos _, rfl, h⟩
        · obtain ⟨k, hk, hb, hxk⟩ := ih rt x h
          exact ⟨k + 1, Nat.succ_lt_succ hk, hb, hxk⟩

theorem keepFilter_pairwise (R : SearchResult → SearchResult → Prop) :
    ∀ (bs : List Bool) (rs : List SearchResult),
      (∀ i j (hi : i < rs.length) (hj : j < rs.length), i < j →
        bs.getD i false = true → bs.getD j false = true →
        R (rs.get ⟨i, hi⟩) (rs.get ⟨j, hj⟩)) →
      (keepFilter bs rs).Pairwise R := by
  intro bs
  induction bs with
  | nil => intro rs _; cases rs <;> exact List.Pairwise.nil
  | cons b bt ih =>
    intro rs h
    cases rs with
    | nil => exact List.Pairwise.nil
    | cons r rt =>
      cases b with
      | false =>
        simp only [keepFilter, Bool.false_eq_true, if_false]
        exact ih rt (fun i j hi hj hij hbi hbj =>
          h (i + 1) (j + 1) (Nat.succ_lt_succ hi) (Nat.succ_lt_succ hj)
            (Nat.succ_lt_succ hij) hbi hbj)
      | true =>
        simp only [keepFilter, if_true]
        refine List.Pairwise.cons ?_
          (ih rt (fun i j hi hj hij hbi hbj =>
            h (i + 1) (j + 1) (Nat.succ_lt_succ hi) (Nat.succ_lt_succ hj)
              (Nat.succ_lt_succ hij) hbi hbj))
        intro z hz
        obtain ⟨k, hk, hb, hzk⟩ := keepFilter_mem bt rt z hz
        rw [hzk]
        exact h 0 (k + 1) (Nat.succ_pos _) (Nat.succ_lt_succ hk) (Nat.succ_pos _) rfl hb

theorem wordSets_getD (rs : List SearchResult) (k : Nat) (hk : k < rs.length) :
    (rs.map (fun r => tokenize r.content)).getD k ∅ =
      tokenize (rs.get ⟨k, hk⟩).content := by
  rw [List.getD_eq_getElem _ _ (by rw [List.length_map]; exact hk), List.getElem_map]
  rfl

/-- The keep-filter of flags computed from the word sets of `rs` is
pairwise dissimilar (stated over an abstract `sets` to keep unification
cheap). -/
theorem kf_flags_pairwise (rs : List SearchResult) (threshold : ℚ)
    (sets : List (Finset Str)) (hsets : sets = rs.map (fun r => tokenize r.content)) :
    (keepFilter (dedupFlags sets threshold) rs).Pairwise
      (fun a b =>
        jaccardSimilarity (tokenize a.content) (tokenize b.content) < threshold) := by
  refine keepFilter_pairwise _ _ _ ?_
  intro i j hi hj hij hbi hbj
  have hj2 : j < sets.length := by
    rw [hsets, List.length_map]
    exact hj
  have key := dedupFlags_pairwise sets threshold i j hij hj2 hbi hbj
  rw [hsets, wordSets_getD rs i hi, wordSets_getD rs j hj] at key
  exact key

/-- The survivors of one deduplication pass are pairwise dissimilar. -/
theorem deduplicateResults_pairwise (results : List SearchResult) (threshold : ℚ) :
    (deduplicateResults results threshold).Pairwise
      (fun a b =>
        jaccardSimilarity (tokenize a.content) (tokenize b.content) < threshold) := by
  by_cases h : results.length ≤ 1
  · rw [deduplicateResults, if_pos h]
    cases results with
    | nil => exact List.Pairwise.nil
    | cons a t =>
      cases t with
      | nil => exact List.pairwise_singleton _ _
      | cons b t2 => simp at h
  · rw [deduplicateResults, if_neg h]
    exact kf_flags_pairwise results threshold _ rfl

/-- A pairwise-dissimilar list keeps every flag true (abstract-`sets`
variant). -/
theorem kf_flags_fix (rs : List SearchResult) (threshold : ℚ)
    (sets : List (Finset Str)) (hsets : sets = rs.map (fun r => tokenize r.content))
    (h : rs.Pairwise
      (fun a b =>
        jaccardSimilarity (tokenize a.content) (tokenize b.content) < threshold)) :
    keepFilter (dedupFlags sets threshold) rs = rs := by
  have hlen : sets.length = rs.length := by rw [hsets, List.length_map]
  have hidx := List.pairwise_iff_getElem.mp h
  have hpair : ∀ i j, i < j → j < sets.length →
      jaccardSimilarity (sets.getD i ∅) (sets.getD j ∅) < threshold := by
    intro i j hij hj
    rw [hlen] at hj
    have hi : i < rs.length := lt_trans hij hj
    rw [hsets, wordSets_getD rs i hi, wordSets_getD rs j hj]
    exact hidx i j hi hj hij
  rw [dedupFlags_of_pairwise sets threshold hpair, hlen, keepFilter_replicate]

/-- A pairwise-dissimilar list passes through deduplication unchanged. -/
theorem deduplicateResults_fix (rs : List SearchResult) (threshold : ℚ)
    (h : rs.Pairwise
      (fun a b =>
        jaccardSimilarity (tokenize a.content) (tokenize b.content) < threshold)) :
    deduplicateResults rs threshold = rs := by
  by_cases hlen : rs.length ≤ 1
  · rw [deduplicateResults, if_pos hlen]
  · rw [deduplicateResults, if_neg hlen]
    exact kf_flags_fix rs threshold _ rfl h

/-- C8: `deduplicateResults` is idempotent — a second pass over its output
returns it unchanged, because the surviving list is pairwise strictly
below the similarity threshold. -/
theorem deduplicateResults_idempotent :
    ∀ (results : List SearchResult) (threshold : ℚ),
      deduplicateResults (deduplicateResults results threshold) threshold =
          deduplicateResults results threshold ∧
        (deduplicateResults results threshold).Pairwise
          (fun a b =>
            jaccardSimilarity (tokenize a.content) (tokenize b.content) < threshold) :=
  fun results threshold =>
    ⟨deduplicateResults_fix _ _ (deduplicateResults_pairwise results threshold),
      deduplicateResults_pairwise results threshold⟩

end Rag
